import Mathlib

/-!
# strutil: a verification development

A shallow embedding of `main.go` (package `strutil`).

* A Go `string` is a sequence of bytes: `GoString := List Nat` (each entry a byte value).
* A Go `rune` is a signed integer, an `Int`.
* `for _, r := range s` and `utf8.DecodeRuneInString` decode UTF-8; both are modelled by
  `DecodeRuneInString`, written after the Go standard library (bit masks and shifts are
  written with `%`, `/`, `*` and `+` on disjoint bit fields).
* Loops carry a fuel argument; running out of fuel is the result `none`, which is kept
  apart from every result the Go code can produce.
* Library data that is not part of the repository is a parameter: the range tables
  `unicode.Letter` (beyond Latin-1) and `unicode.Mn`, and the transformers `norm.NFD` and
  `norm.NFC`.
-/

namespace Strutil

/-- A Go string: its bytes. -/
abbrev GoString := List Nat

/-! ## UTF-8 (package `unicode/utf8`) -/

/-- The constant `utf8.RuneError`, U+FFFD. -/
def RuneError : Int := 0xFFFD

/-- The constant `unicode.MaxASCII`, U+007F. -/
def MaxASCII : Int := 0x7F

/-- Lowest continuation byte `locb`. -/
def locb : Nat := 0x80

/-- Highest continuation byte `hicb`. -/
def hicb : Nat := 0xBF

/-- An entry of the table `utf8.first`: ASCII (`as`), invalid (`xx`), or a leading byte with
the size of the sequence and the accepted range of the second byte. -/
inductive First where
  | as : First
  | xx : First
  | lead (sz lo hi : Nat) : First
  deriving DecidableEq, Repr

/-- The table `utf8.first` together with `utf8.acceptRanges`. -/
def first (b : Nat) : First :=
  if b < 0x80 then First.as
  else if b < 0xC2 then First.xx
  else if b < 0xE0 then First.lead 2 locb hicb
  else if b = 0xE0 then First.lead 3 0xA0 hicb
  else if b < 0xED then First.lead 3 locb hicb
  else if b = 0xED then First.lead 3 locb 0x9F
  else if b < 0xF0 then First.lead 3 locb hicb
  else if b = 0xF0 then First.lead 4 0x90 hicb
  else if b < 0xF4 then First.lead 4 locb hicb
  else if b = 0xF4 then First.lead 4 locb 0x8F
  else First.xx

/-- The function `utf8.DecodeRuneInString`: the first rune of `s` and its width in bytes. -/
def DecodeRuneInString (s : GoString) : Int × Nat :=
  match s with
  | [] => (RuneError, 0)
  | s0 :: t =>
    match first s0 with
    | First.as => ((s0 : Int), 1)
    | First.xx => (RuneError, 1)
    | First.lead sz lo hi =>
      if s.length < sz then (RuneError, 1) else
      match t with
      | [] => (RuneError, 1)
      | s1 :: t1 =>
        if s1 < lo ∨ hi < s1 then (RuneError, 1)
        else if sz ≤ 2 then ((((s0 % 32) * 64 + s1 % 64 : Nat) : Int), 2)
        else
          match t1 with
          | [] => (RuneError, 1)
          | s2 :: t2 =>
            if s2 < locb ∨ hicb < s2 then (RuneError, 1)
            else if sz ≤ 3 then
              ((((s0 % 16) * 4096 + (s1 % 64) * 64 + s2 % 64 : Nat) : Int), 3)
            else
              match t2 with
              | [] => (RuneError, 1)
              | s3 :: _ =>
                if s3 < locb ∨ hicb < s3 then (RuneError, 1)
                else
                  ((((s0 % 8) * 262144 + (s1 % 64) * 4096 + (s2 % 64) * 64 + s3 % 64 : Nat)
                    : Int), 4)

/-- The function `utf8.AppendRune` on an empty buffer: the UTF-8 encoding of `r`
(U+FFFD for a rune that is out of range or a surrogate). -/
def encodeRune (r : Int) : GoString :=
  if r < 0 then [0xEF, 0xBF, 0xBD]
  else
    let i := r.toNat
    if i ≤ 0x7F then [i]
    else if i ≤ 0x7FF then [0xC0 + i / 64, 0x80 + i % 64]
    else if i > 0x10FFFF ∨ (0xD800 ≤ i ∧ i ≤ 0xDFFF) then [0xEF, 0xBF, 0xBD]
    else if i ≤ 0xFFFF then [0xE0 + i / 4096, 0x80 + (i / 64) % 64, 0x80 + i % 64]
    else [0xF0 + i / 262144, 0x80 + (i / 4096) % 64, 0x80 + (i / 64) % 64, 0x80 + i % 64]

/-- The conversion `string(rs)` of a `[]rune`. -/
def stringOfRunes (rs : List Int) : GoString :=
  rs.flatMap encodeRune

/-- The runes visited by `for _, r := range s`, with fuel. -/
def runesAux : Nat → GoString → List Int
  | 0, _ => []
  | fuel + 1, s =>
    if s.length > 0 then
      (DecodeRuneInString s).1 :: runesAux fuel (s.drop (DecodeRuneInString s).2)
    else []

/-- The runes visited by `for _, r := range s` (the code points of `s`). -/
def runes (s : GoString) : List Int :=
  runesAux s.length s

/-- Indexing `s[i]` with an `int` index; `none` is the run-time panic. -/
def index (s : GoString) (i : Int) : Option Nat :=
  if 0 ≤ i then s[i.toNat]? else none

/-! ## IntToBase62 -/

/-- The constant `base62` (an ASCII literal: one byte per character). -/
def base62 : GoString :=
  "0123456789abcdefghijklmnopqrstuvwxyzABCDEFGHIJKLMNOPQRSTUVWXYZ".toList.map Char.toNat

/-- The digit loop of `IntToBase62`:
`for n > 0 { result = append(result, base62[n%62]); n /= 62 }`. -/
def digitLoop : Nat → Int → GoString → Option GoString
  | 0, n, result => if n > 0 then none else some result
  | fuel + 1, n, result =>
    if n > 0 then
      (index base62 (Int.tmod n 62)).bind fun b =>
        digitLoop fuel (Int.tdiv n 62) (result ++ [b])
    else some result

/-- The reversal loop of `IntToBase62`:
`for i, j := 0, len(result)-1; i < j; i, j = i+1, j-1 { swap result[i], result[j] }`. -/
def swapLoop : Nat → Int → Int → GoString → Option GoString
  | 0, i, j, result => if i < j then none else some result
  | fuel + 1, i, j, result =>
    if i < j then
      (index result i).bind fun a =>
        (index result j).bind fun b =>
          swapLoop fuel (i + 1) (j - 1) ((result.set i.toNat b).set j.toNat a)
    else some result

/-- The function `IntToBase62`; `none` would be a panic or a loop that does not finish. -/
def IntToBase62 (n : Int) : Option GoString :=
  if n = 0 then
    (index base62 0).map fun b => encodeRune (b : Int)
  else
    (digitLoop n.toNat n []).bind fun result =>
      swapLoop result.length 0 ((result.length : Int) - 1) result


/-- A string literal as a Go string (its UTF-8 bytes). -/
def lit (s : String) : GoString :=
  stringOfRunes (s.toList.map fun c => (c.toNat : Int))

/-- Following the claim: the value of a base-62 digit character, `0`-`9` are 0..9,
`a`-`z` are 10..35, `A`-`Z` are 36..61; other bytes are not digits. -/
def digitValue (c : Nat) : Option Int :=
  if 48 ≤ c ∧ c ≤ 57 then some ((c : Int) - 48)
  else if 97 ≤ c ∧ c ≤ 122 then some ((c : Int) - 97 + 10)
  else if 65 ≤ c ∧ c ≤ 90 then some ((c : Int) - 65 + 36)
  else none

/-- Following the claim: a base-62 numeral read most-significant digit first. -/
def decodeBase62 (s : GoString) : Option Int :=
  s.foldlM (fun acc c => (digitValue c).map fun v => acc * 62 + v) 0

/-- The byte at position `k` of the alphabet (0 when `k` is out of range). -/
def digitAt (k : Nat) : Nat := base62.getD k 0


/-! ## Letters (package `unicode`) -/

/-- The Latin-1 part of `unicode.IsLetter`: the entries of the table `unicode.properties`
that carry a letter flag. -/
def latin1Letter (r : Int) : Bool :=
  decide ((0x41 ≤ r ∧ r ≤ 0x5A) ∨ (0x61 ≤ r ∧ r ≤ 0x7A) ∨ r = 0xAA ∨ r = 0xB5 ∨ r = 0xBA ∨
    (0xC0 ≤ r ∧ r ≤ 0xD6) ∨ (0xD8 ≤ r ∧ r ≤ 0xF6) ∨ (0xF8 ≤ r ∧ r ≤ 0xFF))

/-- The function `unicode.IsLetter`: the Latin-1 fast path, and beyond it the range table
`unicode.Letter`, a parameter (`Letter r` says that `r` is in the table). -/
def IsLetter (Letter : Int → Bool) (r : Int) : Bool :=
  if 0 ≤ r ∧ r ≤ 0xFF then latin1Letter r else Letter r

/-- The function `isLetter`: a letter that is in none of the five ranges of the switch. -/
def isLetter (Letter : Int → Bool) (r : Int) : Bool :=
  if !IsLetter Letter r then false
  else if r ≥ 0x3034 ∧ r < 0x30ff then false
  else if r ≥ 0x3400 ∧ r < 0x4dbf then false
  else if r ≥ 0x4e00 ∧ r < 0x9fff then false
  else if r ≥ 0xf900 ∧ r < 0xfaff then false
  else if r ≥ 0xff66 ∧ r < 0xff9f then false
  else true

/-! ## WordCount -/

/-- The `switch` in the loop body of `WordCount`, on the pair `(isWord, count)`. -/
def wordStep (Letter : Int → Bool) (st : Bool × Int) (r : Int) : Bool × Int :=
  if isLetter Letter r then
    if !st.1 then (true, st.2 + 1) else st
  else if st.1 && (r == 39 || r == 45) then st
  else (false, st.2)

/-- The loop of `WordCount`:
`for len(s) > 0 { r, size = utf8.DecodeRuneInString(s); switch ...; s = s[size:] }`. -/
def wordLoop (Letter : Int → Bool) : Nat → GoString → Bool × Int → Option Int
  | 0, s, st => if s.length > 0 then none else some st.2
  | fuel + 1, s, st =>
    if s.length > 0 then
      wordLoop Letter fuel (s.drop (DecodeRuneInString s).2)
        (wordStep Letter st (DecodeRuneInString s).1)
    else some st.2

/-- The function `WordCount`; `none` would be a loop that does not finish. -/
def WordCount (Letter : Int → Bool) (s : GoString) : Option Int :=
  wordLoop Letter s.length s (false, 0)

/-- Following the claim: the number of word starts met when scanning code points left to
right. A letter met outside a word starts a word; an apostrophe or a hyphen met inside a
word stays inside it; every other code point leaves the scan outside a word. -/
def wordStarts (Letter : Int → Bool) : Bool → List Int → Nat
  | _, [] => 0
  | inWord, r :: rs =>
    if isLetter Letter r then
      (if inWord then 0 else 1) + wordStarts Letter true rs
    else if inWord ∧ (r = 39 ∨ r = 45) then wordStarts Letter true rs
    else wordStarts Letter false rs

/-- Following the claim: the nearest code point before position `i` that is neither an
apostrophe nor a hyphen. -/
def nearestBefore (rs : List Int) (i : Nat) : Option Int :=
  (rs.take i).reverse.find? fun c => decide (c ≠ 39 ∧ c ≠ 45)

/-- Following the claim: position `i` holds a letter, and the nearest code point before
`i` that is neither an apostrophe nor a hyphen does not exist or is not a letter. -/
def isWordStart (Letter : Int → Bool) (rs : List Int) (i : Nat) : Bool :=
  match rs[i]? with
  | none => false
  | some c =>
    isLetter Letter c &&
      (match nearestBefore rs i with
       | none => true
       | some p => !isLetter Letter p)

/-- Following the claim: the number of positions that are word starts. -/
def wordStartPositions (Letter : Int → Bool) (rs : List Int) : Nat :=
  ((List.range rs.length).filter (isWordStart Letter rs)).length


/-- Following the spec: the five exclusion ranges, lower bound included, upper bound
excluded. -/
def excluded (r : Int) : Bool :=
  decide ((0x3034 ≤ r ∧ r < 0x30FF) ∨ (0x3400 ≤ r ∧ r < 0x4DBF) ∨ (0x4E00 ≤ r ∧ r < 0x9FFF) ∨
    (0xF900 ≤ r ∧ r < 0xFAFF) ∨ (0xFF66 ≤ r ∧ r < 0xFF9F))

/-! ## RemoveEmojis, RemoveAccents, Clean -/

/-- The function `RemoveEmojis`: the loop appends to `output` every rune of `input` that
is at most `unicode.MaxASCII`; the result is `string(output)`. -/
def RemoveEmojis (input : GoString) : GoString :=
  stringOfRunes
    ((runes input).foldl (fun output r => if r ≤ MaxASCII then output ++ [r] else output) [])

/-- A Go `error` value. -/
abbrev GoError := String

/-- A `transform.Transformer` as `transform.String` runs it on a whole string: the output,
or the error (the partial output that comes with an error is used by no caller). -/
abbrev Transformer := GoString → Except GoError GoString

/-- The function `runes.In(table)`: membership in a range table. -/
def runesIn (table : Int → Bool) : Int → Bool := table

/-- The loop of the transformer `runes.Remove(set)`: a rune of `set` is skipped, an invalid
byte is replaced by U+FFFD (unless U+FFFD is in `set`), other runes are copied. -/
def removeLoop (set : Int → Bool) : Nat → GoString → GoString
  | 0, _ => []
  | fuel + 1, s =>
    match s with
    | [] => []
    | s0 :: _ =>
      if 0x80 ≤ s0 ∧ (DecodeRuneInString s).2 = 1 then
        (if set RuneError then [] else encodeRune RuneError) ++ removeLoop set fuel (s.drop 1)
      else if set (DecodeRuneInString s).1 then
        removeLoop set fuel (s.drop (DecodeRuneInString s).2)
      else
        s.take (DecodeRuneInString s).2 ++ removeLoop set fuel (s.drop (DecodeRuneInString s).2)

/-- The transformer `runes.Remove(set)`; it reports no error. -/
def runesRemove (set : Int → Bool) : Transformer :=
  fun s => Except.ok (removeLoop set s.length s)

/-- The function `transform.Chain` of three transformers: each runs on the output of the
one before, and the first error ends the chain. -/
def Chain (a b c : Transformer) : Transformer :=
  fun s => (a s).bind fun o1 => (b o1).bind c

/-- The function `transform.String`. -/
def transformString (t : Transformer) (s : GoString) : Except GoError GoString :=
  t s

/-- The function `RemoveAccents`. The transformers `norm.NFD` and `norm.NFC` and the range
table `unicode.Mn` are parameters. -/
def RemoveAccents (NFD NFC : Transformer) (Mn : Int → Bool) (s : GoString) : GoString :=
  match transformString (Chain NFD (runesRemove (runesIn Mn)) NFC) s with
  | Except.error _ => s
  | Except.ok output => output

/-- The function `Clean`. -/
def Clean (NFD NFC : Transformer) (Mn : Int → Bool) (input : GoString) : GoString :=
  RemoveEmojis (RemoveAccents NFD NFC Mn input)

/-! ## Scalar values -/

/-- A Unicode scalar value: a code point that UTF-8 can encode (no surrogate, at most
U+10FFFF). A text is given by a list of such code points, `stringOfRunes cs` is its Go
string and `cs` are the runes a `range` loop over it visits. -/
def validRune (r : Int) : Bool :=
  decide (0 ≤ r ∧ r ≤ 0x10FFFF ∧ ¬ (0xD800 ≤ r ∧ r ≤ 0xDFFF))

/-! ## strings.NewReplacer -/

/-- The pairs `(old, new)` of the argument list of `strings.NewReplacer`. -/
def oldnewPairs : List GoString → List (GoString × GoString)
  | o :: n :: rest => (o, n) :: oldnewPairs rest
  | _ => []

/-- The replacement of the byte `b` in a replacer whose old strings are single bytes: the
new string of the first pair whose old string is `b` (the first pair takes precedence). -/
def replacementOf (oldnew : List GoString) (b : Nat) : Option GoString :=
  ((oldnewPairs oldnew).find? fun p => p.1 == [b]).map Prod.snd

/-- The method `Replacer.Replace` of a replacer all of whose old strings are single bytes
(every replacer of this package): `strings.NewReplacer` then builds a `byteReplacer` or a
`byteStringReplacer`, and both write, for each byte of `s` in order, its replacement when
it has one and the byte itself otherwise. -/
def Replace (oldnew : List GoString) (s : GoString) : GoString :=
  s.flatMap fun b =>
    match replacementOf oldnew b with
    | some n => n
    | none => [b]

/-- The function `ReplaceSlashes`. -/
def ReplaceSlashes (input replace : GoString) : GoString :=
  Replace [lit "/", replace, lit "_", replace, lit "-", replace, lit "%", replace,
    lit "(", replace, lit ")", replace] input

/-- The function `RemoveSlashes`. -/
def RemoveSlashes (input : GoString) : GoString :=
  ReplaceSlashes input (lit "")

/-- Following the claim: the code point is one of `/ _ - % ( )`. -/
def isSlashChar (c : Int) : Bool :=
  decide (c = 47 ∨ c = 95 ∨ c = 45 ∨ c = 37 ∨ c = 40 ∨ c = 41)

/-- Following the claim: the byte is one of `/ _ - % ( )`. -/
def isSlashByte (b : Nat) : Bool :=
  decide (b = 47 ∨ b = 95 ∨ b = 45 ∨ b = 37 ∨ b = 40 ∨ b = 41)

/-! ## UpperFirst, LowerFirst -/

/-- The function `unicode.ToUpper`: the ASCII branch, and beyond it the table
`unicode.CaseRanges` (`upper r` is the upper case of `r` by that table), a parameter. -/
def unicodeToUpper (upper : Int → Int) (r : Int) : Int :=
  if r ≤ MaxASCII then
    if 97 ≤ r ∧ r ≤ 122 then r - 32 else r
  else upper r

/-- The function `unicode.ToLower`: the ASCII branch, and beyond it the table
`unicode.CaseRanges` (`lower r` is the lower case of `r` by that table), a parameter. -/
def unicodeToLower (lower : Int → Int) (r : Int) : Int :=
  if r ≤ MaxASCII then
    if 65 ≤ r ∧ r ≤ 90 then r + 32 else r
  else lower r

/-- The function `UpperFirst`. -/
def UpperFirst (upper : Int → Int) (s : GoString) : GoString :=
  if s.length = 0 then []
  else
    encodeRune (unicodeToUpper upper (DecodeRuneInString s).1) ++
      s.drop (DecodeRuneInString s).2

/-- The function `LowerFirst`. -/
def LowerFirst (lower : Int → Int) (s : GoString) : GoString :=
  if s.length = 0 then []
  else
    encodeRune (unicodeToLower lower (DecodeRuneInString s).1) ++
      s.drop (DecodeRuneInString s).2

/-- Following the comment in `isLetter`: the character class
`[぀-ヿ㐀-䶿一-鿿豈-﫿ｦ-ﾟ]`, both bounds of each
range included. -/
def commentCJK (r : Int) : Bool :=
  decide ((0x3040 ≤ r ∧ r ≤ 0x30FF) ∨ (0x3400 ≤ r ∧ r ≤ 0x4DBF) ∨ (0x4E00 ≤ r ∧ r ≤ 0x9FFF) ∨
    (0xF900 ≤ r ∧ r ≤ 0xFAFF) ∨ (0xFF66 ≤ r ∧ r ≤ 0xFF9F))

/-! ## Packages `unicode` and `strings`: IsSpace, Fields, Map, ToLower, ToUpper, Join -/

/-- The function `unicode.IsSpace`: the Latin-1 switch, and beyond it the range table
`unicode.White_Space`, a parameter (`WhiteSpace r` says that `r` is in the table). -/
def IsSpace (WhiteSpace : Int → Bool) (r : Int) : Bool :=
  if 0 ≤ r ∧ r ≤ 0xFF then
    decide (r = 9 ∨ r = 10 ∨ r = 11 ∨ r = 12 ∨ r = 13 ∨ r = 32 ∨ r = 0x85 ∨ r = 0xA0)
  else WhiteSpace r

/-- The pairs visited by `for i, r := range s`, with fuel: the rune `r` and the bytes
`s[i:i+size]` it was decoded from. -/
def rangeAux : Nat → GoString → List (Int × GoString)
  | 0, _ => []
  | fuel + 1, s =>
    if s.length > 0 then
      ((DecodeRuneInString s).1, s.take (DecodeRuneInString s).2) ::
        rangeAux fuel (s.drop (DecodeRuneInString s).2)
    else []

/-- The pairs visited by `for i, r := range s`. -/
def rangeString (s : GoString) : List (Int × GoString) :=
  rangeAux s.length s

/-- One iteration of the loop of `strings.FieldsFunc`. The state is the list `spans` and
the bytes `s[start:end]` of the open span (`none` when `start < 0`). -/
def fieldsStep (f : Int → Bool) (st : List GoString × Option GoString)
    (p : Int × GoString) : List GoString × Option GoString :=
  if f p.1 then
    match st.2 with
    | some w => (st.1 ++ [w], none)
    | none => st
  else
    match st.2 with
    | some w => (st.1, some (w ++ p.2))
    | none => (st.1, some p.2)

/-- The end of `strings.FieldsFunc`: `if start >= 0 { spans = append(spans, ...) }`, the
span that is open at the end of `s` is a field. -/
def fieldsEnd (st : List GoString × Option GoString) : List GoString :=
  match st.2 with
  | some w => st.1 ++ [w]
  | none => st.1

/-- The function `strings.FieldsFunc`: the loop over the runes of `s`, then the span that
is still open at the end of `s`. -/
def FieldsFunc (s : GoString) (f : Int → Bool) : List GoString :=
  fieldsEnd ((rangeString s).foldl (fieldsStep f) ([], none))

/-- The function `strings.Fields`: `FieldsFunc(s, unicode.IsSpace)` (the library has a
second loop for a string of ASCII bytes only, which computes the same fields). -/
def Fields (WhiteSpace : Int → Bool) (s : GoString) : List GoString :=
  FieldsFunc s (IsSpace WhiteSpace)

/-- The function `strings.Map`: every rune of `s` (U+FFFD for an invalid byte) is replaced
by its image, a negative image is dropped, the images are written as UTF-8. -/
def stringsMap (mapping : Int → Int) (s : GoString) : GoString :=
  stringOfRunes (((runes s).map mapping).filter fun r => decide (0 ≤ r))

/-- The function `strings.ToLower`: bytewise on a string of ASCII bytes only, otherwise
`Map(unicode.ToLower, s)`. -/
def ToLower (lower : Int → Int) (s : GoString) : GoString :=
  if s.all (fun c => decide (c < 0x80)) then
    s.map fun c => if 65 ≤ c ∧ c ≤ 90 then c + 32 else c
  else stringsMap (unicodeToLower lower) s

/-- The function `strings.ToUpper`: bytewise on a string of ASCII bytes only, otherwise
`Map(unicode.ToUpper, s)`. -/
def ToUpper (upper : Int → Int) (s : GoString) : GoString :=
  if s.all (fun c => decide (c < 0x80)) then
    s.map fun c => if 97 ≤ c ∧ c ≤ 122 then c - 32 else c
  else stringsMap (unicodeToUpper upper) s

/-- The function `strings.Join`: no element gives the empty string; otherwise the first
element, then `sep` and the element for each further element. -/
def Join : List GoString → GoString → GoString
  | [], _ => []
  | e :: es, sep => e ++ es.flatMap fun s => sep ++ s

/-! ## KebabCase, SnakeCase, UpperSnakeCase -/

/-- The function `KebabCase`. -/
def KebabCase (WhiteSpace : Int → Bool) (lower : Int → Int) (input : GoString) : GoString :=
  Join ((Fields WhiteSpace
    (Replace [lit ".", lit " ", lit "_", lit " ", lit "-", lit " "] input)).map (ToLower lower))
    (lit "-")

/-- The function `SnakeCase`. -/
def SnakeCase (WhiteSpace : Int → Bool) (lower : Int → Int) (input : GoString) : GoString :=
  Join ((Fields WhiteSpace
    (Replace [lit ".", lit " ", lit "_", lit " ", lit "-", lit " "] input)).map (ToLower lower))
    (lit "_")

/-- The function `UpperSnakeCase`. -/
def UpperSnakeCase (WhiteSpace : Int → Bool) (upper : Int → Int) (input : GoString) :
    GoString :=
  Join ((Fields WhiteSpace
    (Replace [lit ".", lit " ", lit "_", lit " ", lit "-", lit " "] input)).map (ToUpper upper))
    (lit "_")

/-! ## Title casers (packages `language` and `cases`) -/

/-- A `language.Tag`, as the list of its subtags. -/
abbrev Tag := List String

/-- The tag `language.English`. -/
def English : Tag := ["en"]

/-- The tag `language.BrazilianPortuguese`. -/
def BrazilianPortuguese : Tag := ["pt", "BR"]

/-- The variable `supported` of package `cases`: the languages that have casing rules of
their own; the first entry, the undetermined language, is the root of every inheritance
chain. -/
def supported : List Tag := [["und"], ["af"], ["az"], ["el"], ["lt"], ["nl"], ["tr"]]

/-- The parent of a tag in the inheritance chain: the tag without its last subtag, and
`und` for a bare language. -/
def parent (t : Tag) : Tag :=
  if t.length ≤ 1 then ["und"] else t.dropLast

/-- The loop of the inheritance matcher of package `cases`, with fuel: the index in
`supported` of the first tag of the chain `t`, `parent t`, ... that is supported. -/
def matchLoop : Nat → Tag → Option Nat
  | 0, _ => none
  | fuel + 1, t =>
    match supported.findIdx? fun u => u == t with
    | some i => some i
    | none => matchLoop fuel (parent t)

/-- The index that `matcher.Match(t)` gives in `makeTitle`; index 0 when no tag of the
chain is supported. -/
def matchIndex (t : Tag) : Nat :=
  (matchLoop (t.length + 1) t).getD 0

/-- The method `String` of the caser `cases.Title(t)`: the title caser built from entry
`matchIndex t` of the table `titleInfos`, run on a whole string. The casers of the table
are a parameter. -/
def casesTitle (titleInfos : Nat → GoString → GoString) (t : Tag) (s : GoString) : GoString :=
  titleInfos (matchIndex t) s

/-! ## CamelCase, PascalCase, UpperCamelCase, LowerCamelCase -/

/-- The function `CamelCase`. -/
def CamelCase (WhiteSpace : Int → Bool) (titleInfos : Nat → GoString → GoString)
    (input : GoString) : GoString :=
  Join ((Fields WhiteSpace
    (Replace [lit ".", lit " ", lit "_", lit " ", lit "-", lit " "] input)).map
      (casesTitle titleInfos BrazilianPortuguese)) (lit "")

/-- The function `PascalCase`. -/
def PascalCase (WhiteSpace : Int → Bool) (titleInfos : Nat → GoString → GoString)
    (input : GoString) : GoString :=
  Join ((Fields WhiteSpace
    (Replace [lit ".", lit " ", lit "_", lit " ", lit "-", lit " "] input)).map
      (casesTitle titleInfos BrazilianPortuguese)) (lit "")

/-- The function `UpperCamelCase`. -/
def UpperCamelCase (WhiteSpace : Int → Bool) (titleInfos : Nat → GoString → GoString)
    (input : GoString) : GoString :=
  Join ((Fields WhiteSpace
    (Replace [lit ".", lit " ", lit "_", lit " ", lit "-", lit " "] input)).map
      (casesTitle titleInfos BrazilianPortuguese)) (lit "")

/-- The function `LowerCamelCase`. -/
def LowerCamelCase (WhiteSpace : Int → Bool) (titleInfos : Nat → GoString → GoString)
    (input : GoString) : GoString :=
  Join ((Fields WhiteSpace
    (Replace [lit ".", lit " ", lit "_", lit " ", lit "-", lit " "] input)).map
      (casesTitle titleInfos English)) (lit "")

/-! ## Words, following the claims -/

/-- Following the claim: a code point that separates words, whitespace or one of
`. _ -`. -/
def isSeparator (WhiteSpace : Int → Bool) (r : Int) : Bool :=
  IsSpace WhiteSpace r || decide (r = 46 ∨ r = 95 ∨ r = 45)

/-- Following the claim: the words of a text given by its code points, the maximal runs of
code points that are not separators, in order, empty runs dropped. -/
def splitWords (WhiteSpace : Int → Bool) (cs : List Int) : List (List Int) :=
  (cs.splitOnP (isSeparator WhiteSpace)).filter fun w => !w.isEmpty

/-- Following the claim: words joined by a single separator code point. -/
def joinWords : List (List Int) → Int → List Int
  | [], _ => []
  | w :: ws, sep => w ++ ws.flatMap fun x => sep :: x


/-! ## Theorems -/

/-! ### IntToBase62 -/

theorem index_base62 (k : Nat) (hk : k < 62) : index base62 (k : Int) = some (digitAt k) := by
  have hlen : base62.length = 62 := by decide
  simp only [index, digitAt, Int.toNat_ofNat, Int.natCast_nonneg, if_true]
  rw [List.getD_eq_getElem?_getD, List.getElem?_eq_getElem (by omega)]
  rfl

theorem digitLoop_eq (fuel : Nat) : ∀ (m : Nat) (result : GoString), m ≤ fuel →
    digitLoop fuel (m : Int) result = some (result ++ (Nat.digits 62 m).map digitAt) := by
  induction fuel with
  | zero =>
    intro m result hm
    have : m = 0 := by omega
    subst this
    simp [digitLoop]
  | succ fuel ih =>
    intro m result hm
    by_cases h0 : m = 0
    · subst h0
      simp [digitLoop]
    · have hpos : (m : Int) > 0 := by omega
      have hle : m / 62 ≤ fuel := by omega
      have hd : Nat.digits 62 m = (m % 62) :: Nat.digits 62 (m / 62) :=
        Nat.digits_def' (by omega) (by omega)
      have hmod : Int.tmod (m : Int) 62 = ((m % 62 : Nat) : Int) := by
        rw [Int.tmod_eq_emod (by omega) (by omega)]; simp
      have hdiv : Int.tdiv (m : Int) 62 = ((m / 62 : Nat) : Int) := by
        rw [Int.tdiv_eq_ediv (by omega) (by omega)]; simp
      rw [digitLoop, if_pos hpos, hmod, hdiv, index_base62 _ (Nat.mod_lt _ (by decide))]
      simp only [Option.some_bind]
      rw [ih (m / 62) _ hle, hd]
      simp

theorem index_append_length (pre post : GoString) (a : Nat) :
    index (pre ++ a :: post) (pre.length : Int) = some a := by
  simp only [index, Int.toNat_ofNat, Int.natCast_nonneg, if_true]
  rw [List.getElem?_append_right (le_refl _)]
  simp

theorem set_append_length (pre post : GoString) (a b : Nat) :
    (pre ++ a :: post).set pre.length b = pre ++ b :: post := by
  induction pre with
  | nil => rfl
  | cons x xs ih => simp [ih]

theorem swapLoop_mid (fuel : Nat) : ∀ (pre mid post : GoString), mid.length ≤ fuel →
    swapLoop fuel (pre.length : Int) ((pre.length : Int) + (mid.length : Int) - 1)
      (pre ++ mid ++ post) = some (pre ++ mid.reverse ++ post) := by
  induction fuel with
  | zero =>
    intro pre mid post h
    have : mid = [] := List.length_eq_zero.mp (by omega)
    subst this
    simp [swapLoop]
  | succ fuel ih =>
    intro pre mid post h
    match mid, h with
    | [], _ => simp [swapLoop]
    | [a], _ => simp [swapLoop]
    | a :: b :: rest, h =>
      obtain ⟨mid1, z, hz⟩ : ∃ mid1 z, b :: rest = mid1 ++ [z] := by
        rcases List.eq_nil_or_concat (b :: rest) with h1 | ⟨l, x, h2⟩
        · simp at h1
        · exact ⟨l, x, by simpa using h2⟩
      rw [hz]
      have hlen : rest.length + 1 = mid1.length + 1 := by
        have := congrArg List.length hz
        simpa using this
      simp only [List.length_cons] at h
      have hl : (a :: (mid1 ++ [z])).length = mid1.length + 2 := by simp
      have hj0 : (pre.length : Int) + ((mid1.length + 2 : Nat) : Int) - 1
          = (((pre ++ a :: mid1).length : Nat) : Int) := by
        simp only [List.length_append, List.length_cons]; push_cast; omega
      have e2 : pre ++ a :: (mid1 ++ [z]) ++ post = (pre ++ a :: mid1) ++ (z :: post) := by simp
      have e1 : pre ++ a :: (mid1 ++ [z]) ++ post = pre ++ a :: (mid1 ++ z :: post) := by simp
      have hij : (pre.length : Int) < (((pre ++ a :: mid1).length : Nat) : Int) := by
        simp only [List.length_append, List.length_cons]; push_cast; omega
      rw [hl, hj0, swapLoop, if_pos hij]
      have hi : index (pre ++ a :: (mid1 ++ [z]) ++ post) (pre.length : Int) = some a := by
        rw [e1]; exact index_append_length _ _ _
      have hj : index (pre ++ a :: (mid1 ++ [z]) ++ post)
          (((pre ++ a :: mid1).length : Nat) : Int) = some z := by
        rw [e2]; exact index_append_length _ _ _
      rw [hi, hj]
      simp only [Option.some_bind, Int.toNat_ofNat]
      have hs : ((pre ++ a :: (mid1 ++ [z]) ++ post).set pre.length z).set
          (pre ++ a :: mid1).length a = (pre ++ [z]) ++ mid1 ++ (a :: post) := by
        rw [e1, set_append_length]
        have e3 : pre ++ z :: (mid1 ++ z :: post) = (pre ++ z :: mid1) ++ (z :: post) := by simp
        have e4 : (pre ++ a :: mid1).length = (pre ++ z :: mid1).length := by simp
        rw [e3, e4, set_append_length]
        simp
      rw [hs]
      have hi2 : (pre.length : Int) + 1 = (((pre ++ [z]).length : Nat) : Int) := by simp
      have hj2 : (((pre ++ a :: mid1).length : Nat) : Int) - 1
          = (((pre ++ [z]).length : Nat) : Int) + (mid1.length : Int) - 1 := by
        simp only [List.length_append, List.length_cons, List.length_nil]; push_cast; omega
      rw [hi2, hj2, ih (pre ++ [z]) mid1 (a :: post) (by omega)]
      simp

theorem swapLoop_reverse (l : GoString) :
    swapLoop l.length 0 ((l.length : Int) - 1) l = some l.reverse := by
  have h := swapLoop_mid l.length [] l [] (le_refl _)
  simpa using h

theorem IntToBase62_pos (m : Nat) (hm : 0 < m) :
    IntToBase62 (m : Int) = some ((Nat.digits 62 m).reverse.map digitAt) := by
  have h0 : ¬ ((m : Int) = 0) := by omega
  rw [IntToBase62, if_neg h0, Int.toNat_ofNat, digitLoop_eq m m [] (le_refl _)]
  simp only [Option.some_bind, List.nil_append]
  rw [swapLoop_reverse]
  simp [List.map_reverse]

theorem IntToBase62_zero : IntToBase62 0 = some [digitAt 0] := by decide

/-- The recurrence behind the numeral: one digit below 62, otherwise the numeral of the
quotient followed by the digit of the remainder. -/
theorem IntToBase62_nat (m : Nat) :
    (m < 62 → IntToBase62 (m : Int) = some [digitAt m]) ∧
    (62 ≤ m → ∃ p, IntToBase62 ((m / 62 : Nat) : Int) = some p ∧
      IntToBase62 (m : Int) = some (p ++ [digitAt (m % 62)])) := by
  constructor
  · intro h
    by_cases h0 : m = 0
    · subst h0; exact IntToBase62_zero
    · rw [IntToBase62_pos m (by omega), Nat.digits_def' (by omega) (by omega),
        Nat.div_eq_of_lt h, Nat.mod_eq_of_lt h]
      simp
  · intro h
    have hq : 0 < m / 62 := Nat.div_pos h (by omega)
    refine ⟨_, IntToBase62_pos (m / 62) hq, ?_⟩
    rw [IntToBase62_pos m (by omega)]
    have hd : Nat.digits 62 m = (m % 62) :: Nat.digits 62 (m / 62) :=
      Nat.digits_def' (by omega) (by omega)
    rw [hd]
    simp

theorem digitValue_digitAt : ∀ k, k < 62 → digitValue (digitAt k) = some (k : Int) := by
  decide

theorem decodeBase62_snoc (p : GoString) (c : Nat) :
    decodeBase62 (p ++ [c]) =
      (decodeBase62 p).bind fun a => (digitValue c).map fun v => a * 62 + v := by
  simp [decodeBase62, List.foldlM_append]

theorem base62_roundtrip_nat (m : Nat) :
    ∃ s, IntToBase62 (m : Int) = some s ∧ decodeBase62 s = some (m : Int) := by
  induction m using Nat.strong_induction_on with
  | _ m ih =>
    by_cases h : m < 62
    · refine ⟨_, (IntToBase62_nat m).1 h, ?_⟩
      have := decodeBase62_snoc [] (digitAt m)
      simp only [List.nil_append] at this
      rw [this, digitValue_digitAt m h]
      simp [decodeBase62]
    · obtain ⟨p, hp, hm⟩ := (IntToBase62_nat m).2 (by omega)
      obtain ⟨s, hs, hdec⟩ := ih (m / 62) (by omega)
      rw [hp] at hs
      cases hs
      refine ⟨_, hm, ?_⟩
      rw [decodeBase62_snoc, hdec, digitValue_digitAt _ (Nat.mod_lt _ (by decide))]
      simp only [Option.some_bind, Option.map_some']
      congr 1
      have := Nat.div_add_mod m 62
      omega

/-- C1: for every n >= 0, IntToBase62 n returns a numeral, and reading that numeral in
base 62, most-significant digit first, with the digit values of the alphabet 0-9a-zA-Z,
gives n back. -/
theorem IntToBase62_decode (n : Int) (hn : 0 ≤ n) :
    ∃ s, IntToBase62 n = some s ∧ decodeBase62 s = some n := by
  obtain ⟨m, rfl⟩ := Int.eq_ofNat_of_zero_le hn
  exact base62_roundtrip_nat m

theorem IntToBase62_decode_witness :
    (0 : Int) ≤ 3843 ∧ ∃ s, IntToBase62 3843 = some s ∧ decodeBase62 s = some 3843 :=
  ⟨by decide, IntToBase62_decode 3843 (by decide)⟩

/-- C2: IntToBase62 writes the numeral most-significant digit first over the alphabet
0-9a-zA-Z. For 0 <= n < 62 the result is the single alphabet character at index n; for
n >= 62 it is IntToBase62 (n div 62) followed by the alphabet character at index n mod 62;
0 gives "0", 61 gives "Z" and 62 gives "10". -/
theorem IntToBase62_msd_first (n : Int) (hn : 0 ≤ n) :
    (n < 62 → ∃ c, index base62 n = some c ∧ IntToBase62 n = some [c]) ∧
    (62 ≤ n → ∃ p c, IntToBase62 (n / 62) = some p ∧ index base62 (n % 62) = some c ∧
      IntToBase62 n = some (p ++ [c])) ∧
    IntToBase62 0 = some (lit "0") ∧ IntToBase62 61 = some (lit "Z") ∧
    IntToBase62 62 = some (lit "10") := by
  obtain ⟨m, rfl⟩ := Int.eq_ofNat_of_zero_le hn
  refine ⟨?_, ?_, by decide, by decide, by decide⟩
  · intro h
    have hm : m < 62 := by omega
    exact ⟨digitAt m, index_base62 m hm, (IntToBase62_nat m).1 hm⟩
  · intro h
    have hm : 62 ≤ m := by omega
    obtain ⟨p, hp, hr⟩ := (IntToBase62_nat m).2 hm
    have e1 : (m : Int) / 62 = ((m / 62 : Nat) : Int) := by simp
    have e2 : (m : Int) % 62 = ((m % 62 : Nat) : Int) := by simp
    rw [e1, e2]
    exact ⟨p, digitAt (m % 62), hp, index_base62 _ (Nat.mod_lt _ (by decide)), hr⟩

theorem IntToBase62_msd_first_witness :
    (0 : Int) ≤ 238327 ∧
    (((238327 : Int) < 62 → ∃ c, index base62 238327 = some c ∧
        IntToBase62 238327 = some [c]) ∧
     ((62 : Int) ≤ 238327 → ∃ p c, IntToBase62 (238327 / 62) = some p ∧
        index base62 (238327 % 62) = some c ∧ IntToBase62 238327 = some (p ++ [c])) ∧
     IntToBase62 0 = some (lit "0") ∧ IntToBase62 61 = some (lit "Z") ∧
     IntToBase62 62 = some (lit "10")) :=
  ⟨by decide, IntToBase62_msd_first 238327 (by decide)⟩

/-! ### UTF-8 decoding -/

theorem decode_size_pos (s : GoString) (h : s ≠ []) : 1 ≤ (DecodeRuneInString s).2 := by
  unfold DecodeRuneInString
  repeat' split
  all_goals first | omega | simp_all

theorem decode_size_le (s : GoString) : (DecodeRuneInString s).2 ≤ s.length := by
  unfold DecodeRuneInString
  repeat' split
  all_goals (simp only [List.length_cons]; omega)

theorem length_drop_decode (s : GoString) (h : s ≠ []) :
    (s.drop (DecodeRuneInString s).2).length < s.length := by
  have h1 := decode_size_pos s h
  have h2 : 0 < s.length := List.length_pos.mpr h
  rw [List.length_drop]
  omega

theorem runesAux_fuel (f1 : Nat) : ∀ (f2 : Nat) (s : GoString), s.length ≤ f1 → s.length ≤ f2 →
    runesAux f1 s = runesAux f2 s := by
  induction f1 with
  | zero =>
    intro f2 s h1 _
    have : s = [] := List.length_eq_zero.mp (by omega)
    subst this
    cases f2 <;> simp [runesAux]
  | succ f1 ih =>
    intro f2 s h1 h2
    by_cases hs : s = []
    · subst hs
      cases f2 <;> simp [runesAux]
    · have hlt := length_drop_decode s hs
      have hpos : s.length > 0 := List.length_pos.mpr hs
      cases f2 with
      | zero => omega
      | succ f2 =>
        simp only [runesAux, if_pos hpos]
        rw [ih f2 _ (by omega) (by omega)]

theorem runes_nil : runes [] = [] := rfl

theorem runes_of_ne_nil (s : GoString) (h : s ≠ []) :
    runes s = (DecodeRuneInString s).1 :: runes (s.drop (DecodeRuneInString s).2) := by
  have hlt := length_drop_decode s h
  have hpos : s.length > 0 := List.length_pos.mpr h
  unfold runes
  obtain ⟨n, hn⟩ : ∃ n, s.length = n + 1 := ⟨s.length - 1, by omega⟩
  rw [hn]
  simp only [runesAux]
  rw [if_pos (by omega), runesAux_fuel n _ _ (by omega) (le_refl _)]

/-- Induction along the decoding of a Go string, one rune at a time. -/
theorem decode_induction {P : GoString → Prop} (hnil : P [])
    (hstep : ∀ s, s ≠ [] → P (s.drop (DecodeRuneInString s).2) → P s) : ∀ s, P s := by
  have key : ∀ (n : Nat) (s : GoString), s.length ≤ n → P s := by
    intro n
    induction n with
    | zero =>
      intro s h
      have : s = [] := List.length_eq_zero.mp (by omega)
      subst this
      exact hnil
    | succ n ih =>
      intro s h
      by_cases hs : s = []
      · subst hs; exact hnil
      · have hlt := length_drop_decode s hs
        exact hstep s hs (ih _ (by omega))
  exact fun s => key s.length s (le_refl _)

/-! ### WordCount -/

theorem wordLoop_eq (Letter : Int → Bool) (fuel : Nat) : ∀ (s : GoString) (st : Bool × Int),
    s.length ≤ fuel →
    wordLoop Letter fuel s st = some ((runes s).foldl (wordStep Letter) st).2 := by
  induction fuel with
  | zero =>
    intro s st h
    have : s = [] := List.length_eq_zero.mp (by omega)
    subst this
    simp [wordLoop, runes_nil]
  | succ fuel ih =>
    intro s st h
    by_cases hs : s = []
    · subst hs
      simp [wordLoop, runes_nil]
    · have hlt := length_drop_decode s hs
      have hpos : s.length > 0 := List.length_pos.mpr hs
      rw [wordLoop, if_pos hpos, ih _ _ (by omega), runes_of_ne_nil s hs]
      rfl

theorem foldl_wordStep (Letter : Int → Bool) (rs : List Int) : ∀ (b : Bool) (c : Int),
    (rs.foldl (wordStep Letter) (b, c)).2 = c + (wordStarts Letter b rs : Int) := by
  induction rs with
  | nil => intro b c; simp [wordStarts]
  | cons r rs ih =>
    intro b c
    simp only [List.foldl_cons, wordStep, wordStarts]
    by_cases hl : isLetter Letter r = true
    · cases b
      · simp [hl, ih]; omega
      · simp [hl, ih]
    · simp only [hl, Bool.false_eq_true, if_false]
      by_cases hj : (r = 39 ∨ r = 45)
      · cases b <;> simp [hj, ih]
      · cases b <;> simp [hj, ih]

theorem WordCount_eq_wordStarts (Letter : Int → Bool) (s : GoString) :
    WordCount Letter s = some (wordStarts Letter false (runes s) : Int) := by
  rw [WordCount, wordLoop_eq Letter s.length s _ (le_refl _), foldl_wordStep]
  simp

theorem isLetter_joiner (Letter : Int → Bool) (r : Int) (h : r = 39 ∨ r = 45) :
    isLetter Letter r = false := by
  rcases h with rfl | rfl <;> rfl

theorem isWordStart_append (Letter : Int → Bool) (rs : List Int) (r : Int) (i : Nat)
    (hi : i < rs.length) : isWordStart Letter (rs ++ [r]) i = isWordStart Letter rs i := by
  unfold isWordStart nearestBefore
  rw [List.getElem?_append_left hi, List.take_append_of_le_length (by omega)]

theorem wordStartPositions_snoc (Letter : Int → Bool) (rs : List Int) (r : Int) :
    wordStartPositions Letter (rs ++ [r]) =
      wordStartPositions Letter rs +
        (if isWordStart Letter (rs ++ [r]) rs.length = true then 1 else 0) := by
  unfold wordStartPositions
  rw [List.length_append, List.length_singleton, List.range_succ, List.filter_append]
  have hc : (List.range rs.length).filter (isWordStart Letter (rs ++ [r])) =
      (List.range rs.length).filter (isWordStart Letter rs) := by
    apply List.filter_congr
    intro i hi
    exact isWordStart_append Letter rs r i (List.mem_range.mp hi)
  rw [hc, List.length_append]
  by_cases h : isWordStart Letter (rs ++ [r]) rs.length = true
  · simp [h]
  · simp [h]

theorem scan_state (Letter : Int → Bool) (rs : List Int) :
    (rs.foldl (wordStep Letter) (false, 0)).1 =
      (match rs.reverse.find? (fun c => decide (c ≠ 39 ∧ c ≠ 45)) with
       | none => false
       | some p => isLetter Letter p) := by
  induction rs using List.reverseRecOn with
  | nil => rfl
  | append_singleton rs r ih =>
    rw [List.foldl_append, List.foldl_cons, List.foldl_nil, List.reverse_append,
      List.reverse_singleton, List.singleton_append, List.find?_cons]
    by_cases hj : (r = 39 ∨ r = 45)
    · have hl := isLetter_joiner Letter r hj
      have hd : decide (r ≠ 39 ∧ r ≠ 45) = false := by
        rcases hj with rfl | rfl <;> decide
      rw [hd]
      simp only [wordStep, hl, Bool.false_eq_true, if_false]
      rw [← ih]
      cases hb : (rs.foldl (wordStep Letter) (false, 0)).1
      · simp
      · have : (r == 39 || r == 45) = true := by
          rcases hj with rfl | rfl <;> decide
        simp [this, hb]
    · have hd : decide (r ≠ 39 ∧ r ≠ 45) = true := by
        simp only [decide_eq_true_eq]
        exact ⟨fun h => hj (Or.inl h), fun h => hj (Or.inr h)⟩
      rw [hd]
      have hn : (r == 39 || r == 45) = false := by
        simp only [Bool.or_eq_false_iff, beq_eq_false_iff_ne]
        exact ⟨fun h => hj (Or.inl h), fun h => hj (Or.inr h)⟩
      simp only [wordStep, hn, Bool.and_false, Bool.false_eq_true, if_false]
      by_cases hl : isLetter Letter r = true
      · simp only [hl, if_true]
        cases hb : (rs.foldl (wordStep Letter) (false, 0)).1 <;> simp [hb]
      · simp [hl]

theorem isWordStart_last (Letter : Int → Bool) (rs : List Int) (r : Int) :
    isWordStart Letter (rs ++ [r]) rs.length =
      (isLetter Letter r && !(rs.foldl (wordStep Letter) (false, 0)).1) := by
  unfold isWordStart nearestBefore
  rw [List.getElem?_append_right (le_refl _), scan_state]
  simp only [Nat.sub_self, List.getElem?_cons_zero, List.take_left']
  cases rs.reverse.find? (fun c => decide (c ≠ 39 ∧ c ≠ 45)) <;> simp

theorem foldl_count_eq_positions (Letter : Int → Bool) (rs : List Int) :
    (rs.foldl (wordStep Letter) (false, 0)).2 = (wordStartPositions Letter rs : Int) := by
  induction rs using List.reverseRecOn with
  | nil => rfl
  | append_singleton rs r ih =>
    rw [List.foldl_append, List.foldl_cons, List.foldl_nil, wordStartPositions_snoc,
      isWordStart_last]
    simp only [wordStep]
    by_cases hl : isLetter Letter r = true
    · cases hb : (rs.foldl (wordStep Letter) (false, 0)).1
      · simp [hl, hb, ih]
      · simp [hl, hb, ih]
    · simp only [hl, Bool.false_eq_true, if_false, Bool.false_and]
      split <;> simp [ih]

theorem wordStarts_eq_positions (Letter : Int → Bool) (rs : List Int) :
    wordStarts Letter false rs = wordStartPositions Letter rs := by
  have h1 := foldl_wordStep Letter rs false 0
  have h2 := foldl_count_eq_positions Letter rs
  omega


theorem isLetter_indep (L1 L2 : Int → Bool) (r : Int)
    (h : (0 ≤ r ∧ r ≤ 0xFF) ∨ excluded r = true) : isLetter L1 r = isLetter L2 r := by
  rcases h with h | h
  · simp only [isLetter, IsLetter, h, and_self, if_true]
  · simp only [excluded, decide_eq_true_eq] at h
    have h1 : isLetter L1 r = false := by
      unfold isLetter
      repeat' split
      all_goals first | rfl | omega
    have h2 : isLetter L2 r = false := by
      unfold isLetter
      repeat' split
      all_goals first | rfl | omega
    rw [h1, h2]

theorem wordStarts_congr (L1 L2 : Int → Bool) (rs : List Int) :
    ∀ b, (∀ r ∈ rs, isLetter L1 r = isLetter L2 r) →
      wordStarts L1 b rs = wordStarts L2 b rs := by
  induction rs with
  | nil => intro b _; rfl
  | cons r rs ih =>
    intro b h
    have hr := h r (List.mem_cons_self _ _)
    have ht : ∀ x ∈ rs, isLetter L1 x = isLetter L2 x :=
      fun x hx => h x (List.mem_cons_of_mem _ hx)
    simp only [wordStarts, hr, ih _ ht]

theorem WordCount_congr (L1 L2 : Int → Bool) (s : GoString)
    (h : ∀ r ∈ runes s, (0 ≤ r ∧ r ≤ 0xFF) ∨ excluded r = true) :
    WordCount L1 s = WordCount L2 s := by
  rw [WordCount_eq_wordStarts, WordCount_eq_wordStarts,
    wordStarts_congr L1 L2 _ false (fun r hr => isLetter_indep L1 L2 r (h r hr))]

/-- C3: for every text s, WordCount s is the number of word starts met when scanning the
code points of s left to right (a letter outside a word starts one, an apostrophe or hyphen
inside a word stays inside, anything else leaves the word); equivalently it is the number
of positions holding a letter whose nearest earlier code point that is neither apostrophe
nor hyphen is missing or is not a letter. WordCount "it's a well-known fact" is 4. -/
theorem WordCount_word_starts (Letter : Int → Bool) (s : GoString) :
    WordCount Letter s = some (wordStarts Letter false (runes s) : Int) ∧
    WordCount Letter s = some (wordStartPositions Letter (runes s) : Int) ∧
    WordCount Letter (lit "it\x27s a well-known fact") = some 4 := by
  refine ⟨WordCount_eq_wordStarts Letter s, ?_, ?_⟩
  · rw [WordCount_eq_wordStarts, wordStarts_eq_positions]
  · rw [WordCount_congr Letter (fun _ => false) _ (by decide!)]
    decide!

theorem wordStarts_no_letter (Letter : Int → Bool) (rs : List Int) :
    ∀ b, (∀ r ∈ rs, isLetter Letter r = false) → wordStarts Letter b rs = 0 := by
  induction rs with
  | nil => intro b _; rfl
  | cons r rs ih =>
    intro b h
    have hr := h r (List.mem_cons_self _ _)
    have ht : ∀ x ∈ rs, isLetter Letter x = false :=
      fun x hx => h x (List.mem_cons_of_mem _ hx)
    simp only [wordStarts, hr, Bool.false_eq_true, if_false]
    split <;> exact ih _ ht

theorem wordStarts_zero_iff (Letter : Int → Bool) (rs : List Int) :
    wordStarts Letter false rs = 0 ↔ ∀ r ∈ rs, isLetter Letter r = false := by
  constructor
  · induction rs with
    | nil => intro _ r hr; simp at hr
    | cons r rs ih =>
      intro h x hx
      by_cases hl : isLetter Letter r = true
      · simp [wordStarts, hl] at h
      · have hl2 : isLetter Letter r = false := by simpa using hl
        simp only [wordStarts, hl2, Bool.false_eq_true, if_false, false_and] at h
        rcases List.mem_cons.mp hx with rfl | hx
        · exact hl2
        · exact ih h x hx
  · exact wordStarts_no_letter Letter rs false

theorem isLetter_excluded (Letter : Int → Bool) (r : Int) (h : excluded r = true) :
    isLetter Letter r = false := by
  simp only [excluded, decide_eq_true_eq] at h
  unfold isLetter
  repeat' split
  all_goals first | rfl | omega

/-- C4: WordCount s is 0 exactly when no code point of s is a letter for isLetter. So the
empty text counts 0, a text made only of code points of the exclusion ranges counts 0, and
a CJK run between two ASCII words neither starts nor extends a word: "hello世界world"
counts 2. -/
theorem WordCount_zero_iff (Letter : Int → Bool) (s : GoString) :
    (WordCount Letter s = some 0 ↔ ∀ r ∈ runes s, isLetter Letter r = false) ∧
    WordCount Letter (lit "") = some 0 ∧
    ((∀ r ∈ runes s, excluded r = true) → WordCount Letter s = some 0) ∧
    WordCount Letter (lit "hello世界world") = some 2 := by
  have hiff : WordCount Letter s = some 0 ↔ ∀ r ∈ runes s, isLetter Letter r = false := by
    rw [WordCount_eq_wordStarts, ← wordStarts_zero_iff]
    constructor
    · intro h
      have := Option.some.inj h
      exact_mod_cast this
    · intro h
      rw [h]; rfl
  refine ⟨hiff, rfl, ?_, ?_⟩
  · intro h
    exact hiff.2 (fun r hr => isLetter_excluded Letter r (h r hr))
  · rw [WordCount_congr Letter (fun _ => false) _ (by decide!)]
    decide!

theorem WordCount_zero_iff_witness :
    WordCount (fun _ => true) (lit "日本語") = some 0 :=
  (WordCount_zero_iff (fun _ => true) (lit "日本語")).2.2.1 (by decide!)

/-- C5: isLetter r holds exactly when r is a Unicode letter (unicode.IsLetter) and r lies
in none of the half-open ranges [U+3034,U+30FF), [U+3400,U+4DBF), [U+4E00,U+9FFF),
[U+F900,U+FAFF), [U+FF66,U+FF9F). -/
theorem isLetter_iff (Letter : Int → Bool) (r : Int) :
    isLetter Letter r = true ↔
      (IsLetter Letter r = true ∧
        ¬ ((0x3034 ≤ r ∧ r < 0x30FF) ∨ (0x3400 ≤ r ∧ r < 0x4DBF) ∨ (0x4E00 ≤ r ∧ r < 0x9FFF) ∨
          (0xF900 ≤ r ∧ r < 0xFAFF) ∨ (0xFF66 ≤ r ∧ r < 0xFF9F))) := by
  unfold isLetter
  cases hL : IsLetter Letter r
  · simp
  · simp only [Bool.not_true, Bool.false_eq_true, if_false, true_and]
    repeat' split
    all_goals first | (constructor <;> intro h <;> first | rfl | omega | simp at h)

/-! ### RemoveEmojis, Clean, RemoveAccents -/

theorem decode_rune_nonneg (s : GoString) : 0 ≤ (DecodeRuneInString s).1 := by
  unfold DecodeRuneInString
  repeat' split
  all_goals (simp only [RuneError]; omega)

theorem runes_nonneg (s : GoString) : ∀ r ∈ runes s, 0 ≤ r := by
  induction s using decode_induction with
  | hnil => intro r hr; simp [runes_nil] at hr
  | hstep s hs ih =>
    intro r hr
    rw [runes_of_ne_nil s hs] at hr
    rcases List.mem_cons.mp hr with rfl | hr
    · exact decode_rune_nonneg s
    · exact ih r hr

theorem foldl_keep_ascii (rs : List Int) : ∀ acc : List Int,
    rs.foldl (fun output r => if r ≤ MaxASCII then output ++ [r] else output) acc =
      acc ++ rs.filter (fun r => decide (r ≤ 127)) := by
  simp only [MaxASCII]
  induction rs with
  | nil => intro acc; simp
  | cons r rs ih =>
    intro acc
    simp only [List.foldl_cons, List.filter_cons]
    by_cases h : r ≤ 127
    · simp [h, ih]
    · simp [h, ih]

theorem RemoveEmojis_eq (s : GoString) :
    RemoveEmojis s = stringOfRunes ((runes s).filter (fun r => decide (r ≤ 127))) := by
  rw [RemoveEmojis, foldl_keep_ascii]
  simp

theorem encodeRune_ascii (r : Int) (h0 : 0 ≤ r) (h1 : r ≤ 127) : encodeRune r = [r.toNat] := by
  unfold encodeRune
  rw [if_neg (by omega)]
  simp only
  rw [if_pos (by omega)]

theorem stringOfRunes_ascii (rs : List Int) (h : ∀ r ∈ rs, 0 ≤ r ∧ r ≤ 127) :
    stringOfRunes rs = rs.map Int.toNat := by
  induction rs with
  | nil => rfl
  | cons r rs ih =>
    have hr := h r (List.mem_cons_self _ _)
    have ht : ∀ x ∈ rs, 0 ≤ x ∧ x ≤ 127 := fun x hx => h x (List.mem_cons_of_mem _ hx)
    have := ih ht
    simp only [stringOfRunes] at this ⊢
    rw [List.flatMap_cons, this, encodeRune_ascii r hr.1 hr.2]
    rfl

theorem decode_ascii_byte (b : Nat) (t : GoString) (hb : b < 128) :
    DecodeRuneInString (b :: t) = ((b : Int), 1) := by
  have hf : first b = First.as := by
    unfold first
    rw [if_pos (by omega)]
  simp only [DecodeRuneInString, hf]

theorem runes_ascii_bytes (bs : GoString) (h : ∀ b ∈ bs, b < 128) :
    runes bs = bs.map Int.ofNat := by
  induction bs with
  | nil => rfl
  | cons b t ih =>
    have hb := h b (List.mem_cons_self _ _)
    have ht : ∀ x ∈ t, x < 128 := fun x hx => h x (List.mem_cons_of_mem _ hx)
    rw [runes_of_ne_nil _ (List.cons_ne_nil _ _), decode_ascii_byte b t hb]
    simp [ih ht]

theorem runes_stringOfRunes_ascii (rs : List Int) (h : ∀ r ∈ rs, 0 ≤ r ∧ r ≤ 127) :
    runes (stringOfRunes rs) = rs := by
  rw [stringOfRunes_ascii rs h, runes_ascii_bytes]
  · rw [List.map_map]
    conv => rhs; rw [← List.map_id rs]
    apply List.map_congr_left
    intro r hr
    have := h r hr
    simp only [Function.comp_apply, id_eq]
    exact Int.toNat_of_nonneg this.1
  · intro b hb
    obtain ⟨r, hr, rfl⟩ := List.mem_map.mp hb
    have := h r hr
    omega

theorem filter_ascii_bounds (s : GoString) :
    ∀ r ∈ (runes s).filter (fun r => decide (r ≤ 127)), 0 ≤ r ∧ r ≤ 127 := by
  intro r hr
  rw [List.mem_filter] at hr
  exact ⟨runes_nonneg s r hr.1, by simpa using hr.2⟩

theorem runes_RemoveEmojis (s : GoString) :
    runes (RemoveEmojis s) = (runes s).filter (fun r => decide (r ≤ 127)) := by
  rw [RemoveEmojis_eq, runes_stringOfRunes_ascii _ (filter_ascii_bounds s)]

/-- C6: for every text s, the code points of RemoveEmojis s are exactly the code points of
s whose value is at most 127, in their original order, and RemoveEmojis s is the string of
those code points. RemoveEmojis "hi😀" is "hi". -/
theorem RemoveEmojis_keeps_ascii (s : GoString) :
    runes (RemoveEmojis s) = (runes s).filter (fun r => decide (r ≤ 127)) ∧
    RemoveEmojis s = stringOfRunes ((runes s).filter (fun r => decide (r ≤ 127))) ∧
    RemoveEmojis (lit "hi😀") = lit "hi" := by
  refine ⟨runes_RemoveEmojis s, RemoveEmojis_eq s, ?_⟩
  decide!

theorem first_lead (b sz lo hi : Nat) (h : first b = First.lead sz lo hi) :
    0x80 ≤ lo ∧ hi ≤ 0xBF ∧
      ((sz = 2 ∧ 0xC2 ≤ b ∧ b < 0xE0) ∨
       (sz = 3 ∧ 0xE0 ≤ b ∧ b < 0xF0 ∧ (b = 0xE0 → lo = 0xA0) ∧ (b = 0xED → hi = 0x9F)) ∨
       (sz = 4 ∧ 0xF0 ≤ b ∧ b ≤ 0xF4 ∧ (b = 0xF0 → lo = 0x90) ∧ (b = 0xF4 → hi = 0x8F))) := by
  unfold first at h
  simp only [locb, hicb] at h
  repeat' split at h
  all_goals first | (cases h; done) | (cases h; omega)

theorem decode_multibyte_large (b : Nat) (t : GoString) (hb : ¬ b < 128) :
    127 < (DecodeRuneInString (b :: t)).1 := by
  cases hf : first b with
  | as =>
    exfalso
    unfold first at hf
    repeat' split at hf
    all_goals first | omega | cases hf
  | xx => simp only [DecodeRuneInString, hf, RuneError]; omega
  | lead sz lo hi =>
    have hl := first_lead b sz lo hi hf
    simp only [DecodeRuneInString, hf, locb, hicb, RuneError]
    repeat' split
    all_goals (simp only []; omega)

theorem decode_le_ascii (s : GoString) (hs : s ≠ []) (h : (DecodeRuneInString s).1 ≤ 127) :
    ∃ b t, s = b :: t ∧ b < 128 ∧ DecodeRuneInString s = ((b : Int), 1) := by
  match s, hs with
  | b :: t, _ =>
    by_cases hb : b < 128
    · exact ⟨b, t, rfl, hb, decode_ascii_byte b t hb⟩
    · exfalso
      have := decode_multibyte_large b t hb
      omega

theorem removeEmojis_of_ascii (s : GoString) :
    (∀ r ∈ runes s, r ≤ 127) → RemoveEmojis s = s := by
  induction s using decode_induction with
  | hnil => intro _; rfl
  | hstep s hs ih =>
    intro h
    rw [runes_of_ne_nil s hs] at h
    have h1 := h _ (List.mem_cons_self _ _)
    obtain ⟨b, t, rfl, hb, hd⟩ := decode_le_ascii s hs h1
    rw [hd] at h ih
    simp only [List.drop_succ_cons, List.drop_zero] at h ih
    have ht := ih (fun r hr => h r (List.mem_cons_of_mem _ hr))
    rw [RemoveEmojis_eq] at ht ⊢
    rw [runes_of_ne_nil _ (List.cons_ne_nil _ _), hd]
    simp only [List.drop_succ_cons, List.drop_zero]
    have hk : List.filter (fun r => decide (r ≤ 127)) ((b : Int) :: runes t) =
        (b : Int) :: List.filter (fun r => decide (r ≤ 127)) (runes t) := by
      rw [List.filter_cons, if_pos (by simp only [decide_eq_true_eq]; omega)]
    rw [hk]
    simp only [stringOfRunes, List.flatMap_cons] at ht ⊢
    rw [ht, encodeRune_ascii _ (by omega) (by omega)]
    simp

/-- C7: for every text s all of whose code points are at most 127, RemoveEmojis s = s. -/
theorem RemoveEmojis_ascii_id (s : GoString) (h : ∀ r ∈ runes s, r ≤ 127) :
    RemoveEmojis s = s :=
  removeEmojis_of_ascii s h

theorem RemoveEmojis_ascii_id_witness :
    (∀ r ∈ runes (lit "Hello, World! 123"), r ≤ 127) ∧
    RemoveEmojis (lit "Hello, World! 123") = lit "Hello, World! 123" :=
  ⟨by decide!, RemoveEmojis_ascii_id (lit "Hello, World! 123") (by decide!)⟩

/-- C8: for every text s, Clean s = RemoveEmojis (RemoveAccents s), and every code point of
Clean s is at most 127, whatever the normalisation transformers and RemoveAccents return. -/
theorem Clean_ascii (NFD NFC : Transformer) (Mn : Int → Bool) (s : GoString) :
    Clean NFD NFC Mn s = RemoveEmojis (RemoveAccents NFD NFC Mn s) ∧
    ∀ r ∈ runes (Clean NFD NFC Mn s), r ≤ 127 := by
  refine ⟨rfl, ?_⟩
  intro r hr
  rw [Clean, runes_RemoveEmojis] at hr
  exact (filter_ascii_bounds _ r hr).2

/-- C10: RemoveAccents is fail-soft. If the chain NFD, remove Mn, NFC reports an error on s
(at any of its stages) then RemoveAccents s is s itself, unchanged; otherwise it is the
output of the chain. The result is always a plain text: no error reaches the caller. -/
theorem RemoveAccents_fail_soft (NFD NFC : Transformer) (Mn : Int → Bool) (s : GoString) :
    (∀ e, transformString (Chain NFD (runesRemove (runesIn Mn)) NFC) s = Except.error e →
      RemoveAccents NFD NFC Mn s = s) ∧
    (∀ output, transformString (Chain NFD (runesRemove (runesIn Mn)) NFC) s = Except.ok output →
      RemoveAccents NFD NFC Mn s = output) ∧
    (∀ e, NFD s = Except.error e → RemoveAccents NFD NFC Mn s = s) ∧
    (∀ d e, NFD s = Except.ok d → NFC (removeLoop Mn d.length d) = Except.error e →
      RemoveAccents NFD NFC Mn s = s) ∧
    (∀ d output, NFD s = Except.ok d → NFC (removeLoop Mn d.length d) = Except.ok output →
      RemoveAccents NFD NFC Mn s = output) := by
  refine ⟨?_, ?_, ?_, ?_, ?_⟩
  · intro e h
    simp only [RemoveAccents, h]
  · intro output h
    simp only [RemoveAccents, h]
  · intro e h
    simp only [RemoveAccents, transformString, Chain, h, Except.bind]
  · intro d e h1 h2
    simp only [RemoveAccents, transformString, Chain, h1, Except.bind, runesRemove, runesIn, h2]
  · intro d output h1 h2
    simp only [RemoveAccents, transformString, Chain, h1, Except.bind, runesRemove, runesIn, h2]

theorem RemoveAccents_fail_soft_witness :
    RemoveAccents (fun _ => Except.error "short source") (fun t => Except.ok t)
      (fun r => decide (0x300 ≤ r ∧ r ≤ 0x36F)) (lit "cafe\u0301") = lit "cafe\u0301" ∧
    RemoveAccents (fun t => Except.ok t) (fun t => Except.ok t)
      (fun r => decide (0x300 ≤ r ∧ r ≤ 0x36F)) (lit "cafe\u0301") = lit "cafe" :=
  ⟨(RemoveAccents_fail_soft (fun _ => Except.error "short source") (fun t => Except.ok t)
      (fun r => decide (0x300 ≤ r ∧ r ≤ 0x36F)) (lit "cafe\u0301")).2.2.1 "short source" rfl,
   (RemoveAccents_fail_soft (fun t => Except.ok t) (fun t => Except.ok t)
      (fun r => decide (0x300 ≤ r ∧ r ≤ 0x36F)) (lit "cafe\u0301")).2.2.2.2
      (lit "cafe\u0301") (lit "cafe") rfl (congrArg Except.ok (by decide!))⟩


/-! ### UTF-8 encoding followed by decoding -/

theorem first_two (b : Nat) (h1 : 0xC2 ≤ b) (h2 : b < 0xE0) :
    first b = First.lead 2 locb hicb := by
  unfold first
  split_ifs <;> first | rfl | omega

theorem first_three (b : Nat) (h1 : 0xE0 ≤ b) (h2 : b < 0xF0) :
    first b = First.lead 3 (if b = 0xE0 then 0xA0 else locb) (if b = 0xED then 0x9F else hicb) := by
  unfold first
  split_ifs <;> first | rfl | omega

theorem first_four (b : Nat) (h1 : 0xF0 ≤ b) (h2 : b ≤ 0xF4) :
    first b = First.lead 4 (if b = 0xF0 then 0x90 else locb) (if b = 0xF4 then 0x8F else hicb) := by
  unfold first
  rw [if_neg (by omega), if_neg (by omega), if_neg (by omega), if_neg (by omega),
    if_neg (by omega), if_neg (by omega), if_neg (by omega)]
  by_cases h0 : b = 0xF0
  · subst h0; rfl
  · rw [if_neg h0, if_neg h0]
    by_cases h4 : b = 0xF4
    · subst h4; rfl
    · rw [if_pos (by omega), if_neg h4]

theorem decode_encode (r : Int) (rest : GoString) (h : validRune r = true) :
    DecodeRuneInString (encodeRune r ++ rest) = (r, (encodeRune r).length) := by
  simp only [validRune, decide_eq_true_eq] at h
  obtain ⟨i, rfl⟩ := Int.eq_ofNat_of_zero_le h.1
  have hr : ¬ ((i : Int) < 0) := by omega
  simp only [encodeRune, hr, if_false, Int.toNat_ofNat]
  by_cases h1 : i ≤ 0x7F
  · rw [if_pos h1]
    exact decode_ascii_byte i rest (by omega)
  · rw [if_neg h1]
    by_cases h2 : i ≤ 0x7FF
    · rw [if_pos h2]
      have hf := first_two (0xC0 + i / 64) (by omega) (by omega)
      simp only [List.cons_append, List.nil_append, DecodeRuneInString, hf, locb, hicb,
        List.length_cons]
      rw [if_neg (by omega), if_neg (by omega), if_pos (by omega)]
      simp only [List.length_nil, Prod.mk.injEq, and_true]
      omega
    · rw [if_neg h2]
      have h3 : ¬ (i > 0x10FFFF ∨ (0xD800 ≤ i ∧ i ≤ 0xDFFF)) := by omega
      rw [if_neg h3]
      by_cases h4 : i ≤ 0xFFFF
      · rw [if_pos h4]
        have hf := first_three (0xE0 + i / 4096) (by omega) (by omega)
        simp only [List.cons_append, List.nil_append, DecodeRuneInString, hf, locb, hicb,
          List.length_cons]
        rw [if_neg (by omega), if_neg (by split_ifs <;> omega), if_neg (by omega),
          if_neg (by omega), if_pos (by omega)]
        simp only [List.length_nil, Prod.mk.injEq, and_true]
        omega
      · rw [if_neg h4]
        have hf := first_four (0xF0 + i / 262144) (by omega) (by omega)
        simp only [List.cons_append, List.nil_append, DecodeRuneInString, hf, locb, hicb,
          List.length_cons]
        rw [if_neg (by omega), if_neg (by split_ifs <;> omega), if_neg (by omega),
          if_neg (by omega), if_neg (by omega), if_neg (by omega)]
        simp only [List.length_nil, Prod.mk.injEq, and_true]
        omega

theorem validRune_RuneError : validRune RuneError = true := by decide

theorem encodeRune_invalid (r : Int) (h : validRune r = false) :
    encodeRune r = encodeRune RuneError := by
  have hE : encodeRune RuneError = [0xEF, 0xBF, 0xBD] := by decide
  rw [hE]
  have h2 : ¬ (0 ≤ r ∧ r ≤ 0x10FFFF ∧ ¬ (0xD800 ≤ r ∧ r ≤ 0xDFFF)) := by
    simpa [validRune] using h
  unfold encodeRune
  by_cases h0 : r < 0
  · rw [if_pos h0]
  · rw [if_neg h0]
    simp only
    rw [if_neg (by omega), if_neg (by omega), if_pos (by omega)]

theorem encodeRune_ne_nil (r : Int) : encodeRune r ≠ [] := by
  unfold encodeRune
  split
  · exact List.cons_ne_nil _ _
  · simp only
    repeat' split
    all_goals exact List.cons_ne_nil _ _

/-- The rune that `string(r)` holds: `r` itself, or U+FFFD when `r` cannot be encoded. -/
theorem runes_encodeRune_append (r : Int) (rest : GoString) :
    runes (encodeRune r ++ rest) =
      (if validRune r = true then r else RuneError) :: runes rest := by
  have hne : encodeRune r ++ rest ≠ [] := by
    intro h
    exact encodeRune_ne_nil r (List.append_eq_nil.mp h).1
  by_cases hv : validRune r = true
  · rw [runes_of_ne_nil _ hne, decode_encode r rest hv, if_pos hv]
    simp
  · have hv2 : validRune r = false := by simpa using hv
    rw [if_neg hv, encodeRune_invalid r hv2] at *
    rw [runes_of_ne_nil _ hne, decode_encode RuneError rest validRune_RuneError]
    simp

theorem runes_stringOfRunes_append (cs : List Int) (rest : GoString)
    (h : ∀ c ∈ cs, validRune c = true) :
    runes (stringOfRunes cs ++ rest) = cs ++ runes rest := by
  induction cs with
  | nil => rfl
  | cons c cs ih =>
    have hc := h c (List.mem_cons_self _ _)
    have ht : ∀ x ∈ cs, validRune x = true := fun x hx => h x (List.mem_cons_of_mem _ hx)
    simp only [stringOfRunes, List.flatMap_cons, List.append_assoc] at ih ⊢
    rw [runes_encodeRune_append, if_pos hc, ih ht]
    rfl

theorem runes_stringOfRunes (cs : List Int) (h : ∀ c ∈ cs, validRune c = true) :
    runes (stringOfRunes cs) = cs := by
  have := runes_stringOfRunes_append cs [] h
  simpa [runes_nil] using this

/-! ### ReplaceSlashes, RemoveSlashes -/

theorem replacementOf_slashes (replace : GoString) (b : Nat) :
    replacementOf [lit "/", replace, lit "_", replace, lit "-", replace, lit "%", replace,
      lit "(", replace, lit ")", replace] b = if isSlashByte b = true then some replace else none := by
  have e1 : lit "/" = [47] := by decide
  have e2 : lit "_" = [95] := by decide
  have e3 : lit "-" = [45] := by decide
  have e4 : lit "%" = [37] := by decide
  have e5 : lit "(" = [40] := by decide
  have e6 : lit ")" = [41] := by decide
  rw [e1, e2, e3, e4, e5, e6]
  simp only [replacementOf, oldnewPairs, isSlashByte, decide_eq_true_eq]
  by_cases h1 : b = 47
  · subst h1; simp [List.find?]
  by_cases h2 : b = 95
  · subst h2; simp [List.find?]
  by_cases h3 : b = 45
  · subst h3; simp [List.find?]
  by_cases h4 : b = 37
  · subst h4; simp [List.find?]
  by_cases h5 : b = 40
  · subst h5; simp [List.find?]
  by_cases h6 : b = 41
  · subst h6; simp [List.find?]
  have hn : ¬ (b = 47 ∨ b = 95 ∨ b = 45 ∨ b = 37 ∨ b = 40 ∨ b = 41) := by omega
  rw [if_neg hn]
  have hb : ∀ k : Nat, ¬ b = k → ([k] == [b]) = false := by
    intro k hk
    simp only [beq_eq_false_iff_ne, ne_eq, List.cons.injEq, and_true]
    exact fun h => hk h.symm
  simp [List.find?, hb 47 h1, hb 95 h2, hb 45 h3, hb 37 h4, hb 40 h5, hb 41 h6]

theorem ReplaceSlashes_bytes (s r : GoString) :
    ReplaceSlashes s r = s.flatMap fun b => if isSlashByte b = true then r else [b] := by
  unfold ReplaceSlashes Replace
  congr 1
  funext b
  rw [replacementOf_slashes]
  split_ifs <;> rfl

theorem encodeRune_ascii_iff (c : Int) (h : 0 ≤ c ∧ c ≤ 127) : encodeRune c = [c.toNat] :=
  encodeRune_ascii c h.1 h.2

theorem encodeRune_high (c : Int) (h : ¬ (0 ≤ c ∧ c ≤ 127)) : ∀ b ∈ encodeRune c, 0x80 ≤ b := by
  unfold encodeRune
  split
  · intro b hb
    simp only [List.mem_cons, List.mem_singleton, List.not_mem_nil, or_false] at hb
    omega
  · simp only
    repeat' split
    all_goals
      intro b hb
      simp only [List.mem_cons, List.mem_singleton, List.not_mem_nil, or_false] at hb
      omega

theorem flatMap_fixed (l : GoString) (g : Nat → GoString) (h : ∀ b ∈ l, g b = [b]) :
    l.flatMap g = l := by
  induction l with
  | nil => rfl
  | cons b t ih =>
    rw [List.flatMap_cons, h b (List.mem_cons_self _ _),
      ih (fun x hx => h x (List.mem_cons_of_mem _ hx))]
    rfl

theorem replace_encodeRune (r : GoString) (c : Int) :
    ((encodeRune c).flatMap fun b => if isSlashByte b = true then r else [b]) =
      if isSlashChar c = true then r else encodeRune c := by
  by_cases ha : 0 ≤ c ∧ c ≤ 127
  · rw [encodeRune_ascii_iff c ha]
    have e : isSlashByte c.toNat = isSlashChar c := by
      simp only [isSlashByte, isSlashChar]
      congr 1
      apply propext
      omega
    simp [e]
  · have hno : isSlashChar c = false := by
      simp only [isSlashChar, decide_eq_false_iff_not]
      omega
    rw [hno]
    simp only [Bool.false_eq_true, if_false]
    apply flatMap_fixed
    intro b hb
    have := encodeRune_high c ha b hb
    have hb2 : isSlashByte b = false := by
      simp only [isSlashByte, decide_eq_false_iff_not]
      omega
    simp [hb2]

theorem ReplaceSlashes_codepoints (cs : List Int) (r : GoString) :
    ReplaceSlashes (stringOfRunes cs) r =
      cs.flatMap fun c => if isSlashChar c = true then r else encodeRune c := by
  rw [ReplaceSlashes_bytes, stringOfRunes, List.flatMap_assoc]
  congr 1
  funext c
  exact replace_encodeRune r c

/-- C11: for every text s, given by its code points cs, and every replacement r,
ReplaceSlashes s r is the concatenation, over the code points in order, of r for each of
/ _ - % ( ) and of the code point itself otherwise. On bytes, for every Go string: each
byte that is one of the six is replaced by r, the others are kept. The inserted text is
not rescanned: r is arbitrary. ReplaceSlashes "a/b_c-d%e(f)g" "-" is "a-b-c-d-e-f-g". -/
theorem ReplaceSlashes_concat (cs : List Int) (s r : GoString) :
    ReplaceSlashes (stringOfRunes cs) r =
      (cs.flatMap fun c => if isSlashChar c = true then r else encodeRune c) ∧
    ReplaceSlashes s r = (s.flatMap fun b => if isSlashByte b = true then r else [b]) ∧
    ReplaceSlashes (lit "a/b_c-d%e(f)g") (lit "-") = lit "a-b-c-d-e-f-g" ∧
    ReplaceSlashes (lit "a/b") (lit "(/)") = lit "a(/)b" := by
  refine ⟨ReplaceSlashes_codepoints cs r, ReplaceSlashes_bytes s r, ?_, ?_⟩
  · decide!
  · decide!

theorem RemoveSlashes_filter (s : GoString) :
    RemoveSlashes s = s.filter fun b => !isSlashByte b := by
  rw [RemoveSlashes, ReplaceSlashes_bytes]
  have e : lit "" = [] := rfl
  rw [e]
  induction s with
  | nil => rfl
  | cons b t ih =>
    rw [List.flatMap_cons, ih, List.filter_cons]
    cases hb : isSlashByte b <;> simp

theorem stringOfRunes_filter_slash (cs : List Int) :
    (cs.flatMap fun c => if isSlashChar c = true then [] else encodeRune c) =
      stringOfRunes (cs.filter fun c => !isSlashChar c) := by
  induction cs with
  | nil => rfl
  | cons c cs ih =>
    rw [List.flatMap_cons, ih, List.filter_cons]
    cases hc : isSlashChar c <;> simp [stringOfRunes]

/-- C12: for every text s, RemoveSlashes s = ReplaceSlashes s "", which is s with every
occurrence of / _ - % ( ) deleted and everything else kept in order (on bytes for every Go
string, on code points for every text given by its code points); so RemoveSlashes s contains
none of the six characters. RemoveSlashes "a/b_c" is "abc". -/
theorem RemoveSlashes_deletes (cs : List Int) (s : GoString) :
    RemoveSlashes s = ReplaceSlashes s (lit "") ∧
    RemoveSlashes s = (s.filter fun b => !isSlashByte b) ∧
    RemoveSlashes (stringOfRunes cs) = stringOfRunes (cs.filter fun c => !isSlashChar c) ∧
    (∀ b ∈ RemoveSlashes s, isSlashByte b = false) ∧
    RemoveSlashes (lit "a/b_c") = lit "abc" := by
  refine ⟨rfl, RemoveSlashes_filter s, ?_, ?_, ?_⟩
  · have e : lit "" = [] := rfl
    rw [RemoveSlashes, ReplaceSlashes_codepoints, e, stringOfRunes_filter_slash]
  · intro b hb
    rw [RemoveSlashes_filter, List.mem_filter] at hb
    simpa using hb.2
  · decide!

theorem ReplaceSlashes_no_slash (s r : GoString) (h : ∀ b ∈ r, isSlashByte b = false) :
    ∀ b ∈ ReplaceSlashes s r, isSlashByte b = false := by
  intro b hb
  rw [ReplaceSlashes_bytes, List.mem_flatMap] at hb
  obtain ⟨a, _, hb⟩ := hb
  by_cases ha : isSlashByte a = true
  · rw [if_pos ha] at hb
    exact h b hb
  · rw [if_neg ha, List.mem_singleton] at hb
    subst hb
    simpa using ha

theorem ReplaceSlashes_fixed (x r : GoString) (h : ∀ b ∈ x, isSlashByte b = false) :
    ReplaceSlashes x r = x := by
  rw [ReplaceSlashes_bytes]
  apply flatMap_fixed
  intro b hb
  simp [h b hb]

/-- C20: for every Go string s and every replacement r that contains none of / _ - % ( ),
ReplaceSlashes s r contains none of the six and applying ReplaceSlashes with r again
changes nothing. Without the precondition idempotence fails: with r = "//" and s = "/" the
first result is "//" and the second is "////". -/
theorem ReplaceSlashes_idempotent (s r : GoString) (h : ∀ b ∈ r, isSlashByte b = false) :
    (∀ b ∈ ReplaceSlashes s r, isSlashByte b = false) ∧
    ReplaceSlashes (ReplaceSlashes s r) r = ReplaceSlashes s r ∧
    ReplaceSlashes (lit "/") (lit "//") = lit "//" ∧
    ReplaceSlashes (ReplaceSlashes (lit "/") (lit "//")) (lit "//") = lit "////" ∧
    ReplaceSlashes (ReplaceSlashes (lit "/") (lit "//")) (lit "//") ≠
      ReplaceSlashes (lit "/") (lit "//") := by
  refine ⟨ReplaceSlashes_no_slash s r h,
    ReplaceSlashes_fixed _ r (ReplaceSlashes_no_slash s r h), ?_, ?_, ?_⟩
  · decide!
  · decide!
  · decide!

theorem ReplaceSlashes_idempotent_witness :
    (∀ b ∈ lit "+", isSlashByte b = false) ∧
    ReplaceSlashes (ReplaceSlashes (lit "a/b_c") (lit "+")) (lit "+") =
      ReplaceSlashes (lit "a/b_c") (lit "+") :=
  ⟨by decide!, (ReplaceSlashes_idempotent (lit "a/b_c") (lit "+") (by decide!)).2.1⟩

/-! ### IntToBase62 on negative integers -/

theorem digitLoop_nonpos (fuel : Nat) (n : Int) (result : GoString) (hn : ¬ n > 0) :
    digitLoop fuel n result = some result := by
  cases fuel with
  | zero => rw [digitLoop, if_neg hn]
  | succ fuel => rw [digitLoop, if_neg hn]

theorem IntToBase62_neg (n : Int) (hn : n < 0) : IntToBase62 n = some [] := by
  have h0 : ¬ n = 0 := by omega
  rw [IntToBase62, if_neg h0, digitLoop_nonpos _ n [] (by omega)]
  rfl

theorem IntToBase62_total (n : Int) : ∃ s, IntToBase62 n = some s := by
  by_cases hn : n < 0
  · exact ⟨[], IntToBase62_neg n hn⟩
  · obtain ⟨m, rfl⟩ := Int.eq_ofNat_of_zero_le (by omega : 0 ≤ n)
    obtain ⟨s, hs, _⟩ := base62_roundtrip_nat m
    exact ⟨s, hs⟩

theorem IntToBase62_injective_nonneg (a b : Int) (ha : 0 ≤ a) (hb : 0 ≤ b)
    (h : IntToBase62 a = IntToBase62 b) : a = b := by
  obtain ⟨m, rfl⟩ := Int.eq_ofNat_of_zero_le ha
  obtain ⟨k, rfl⟩ := Int.eq_ofNat_of_zero_le hb
  obtain ⟨s, hs, hd⟩ := base62_roundtrip_nat m
  obtain ⟨t, ht, hd2⟩ := base62_roundtrip_nat k
  rw [hs, ht] at h
  cases h
  rw [hd] at hd2
  exact Option.some.inj hd2

/-- C18: for every negative n, IntToBase62 n returns the empty text. The digit loop exits
at once whatever the fuel, so the alphabet is not indexed; IntToBase62 returns a text for
every integer (no out-of-range access, no error); all negative inputs share the output "",
and IntToBase62 is injective on n >= 0 only. -/
theorem IntToBase62_negative_empty (n : Int) (hn : n < 0) :
    IntToBase62 n = some [] ∧
    (∀ fuel, digitLoop fuel n [] = some []) ∧
    (∀ m : Int, ∃ s, IntToBase62 m = some s) ∧
    (∀ a b : Int, 0 ≤ a → 0 ≤ b → IntToBase62 a = IntToBase62 b → a = b) ∧
    IntToBase62 (-1) = IntToBase62 (-2) := by
  refine ⟨IntToBase62_neg n hn, fun fuel => digitLoop_nonpos fuel n [] (by omega),
    IntToBase62_total, IntToBase62_injective_nonneg, ?_⟩
  rw [IntToBase62_neg (-1) (by decide), IntToBase62_neg (-2) (by decide)]

theorem IntToBase62_negative_empty_witness :
    (-5 : Int) < 0 ∧ IntToBase62 (-5) = some [] :=
  ⟨by decide, (IntToBase62_negative_empty (-5) (by decide)).1⟩

/-! ### The ranges of isLetter and the ranges of its comment -/

/-- C17: the code of isLetter does not implement the character class of its comment. The
letter U+30FF (and likewise U+FF9F), inside the class, is accepted, because each upper
bound is excluded; the letter U+3034, outside the class, is rejected, because the first
range starts at U+3034. So isLetter is not "a Unicode letter outside the five inclusive
ranges of the comment". -/
theorem isLetter_differs_from_comment :
    isLetter (fun r => decide (r = 0x30FF ∨ r = 0xFF9F ∨ r = 0x3034)) 0x30FF = true ∧
    commentCJK 0x30FF = true ∧
    isLetter (fun r => decide (r = 0x30FF ∨ r = 0xFF9F ∨ r = 0x3034)) 0xFF9F = true ∧
    commentCJK 0xFF9F = true ∧
    isLetter (fun r => decide (r = 0x30FF ∨ r = 0xFF9F ∨ r = 0x3034)) 0x3034 = false ∧
    commentCJK 0x3034 = false ∧
    ¬ (∀ (Letter : Int → Bool) (r : Int),
        isLetter Letter r = true ↔ (IsLetter Letter r = true ∧ commentCJK r = false)) := by
  refine ⟨by decide, by decide, by decide, by decide, by decide, by decide, ?_⟩
  intro h
  have h1 := (h (fun r => decide (r = 0x30FF ∨ r = 0xFF9F ∨ r = 0x3034)) 0x30FF).1 (by decide)
  exact absurd h1.2 (by decide)

/-! ### WordCount across a separator -/

theorem wordStarts_append_sep (Letter : Int → Bool) (c : Int) (bs : List Int)
    (hl : isLetter Letter c = false) (h1 : c ≠ 39) (h2 : c ≠ 45) (xs : List Int) :
    ∀ st, wordStarts Letter st (xs ++ c :: bs) =
      wordStarts Letter st xs + wordStarts Letter false bs := by
  induction xs with
  | nil =>
    intro st
    simp [wordStarts, hl, h1, h2]
  | cons x xs ih =>
    intro st
    have e : (x :: xs) ++ c :: bs = x :: (xs ++ c :: bs) := rfl
    rw [e, wordStarts, wordStarts, ih true, ih false]
    split_ifs <;> omega

/-- C19: WordCount is additive across a separator. For every text a (given by its code
points), every Go string b and every code point c that is not a letter for isLetter, not
an apostrophe and not a hyphen, WordCount (a ++ [c] ++ b) = WordCount a + WordCount b. -/
theorem WordCount_additive (Letter : Int → Bool) (cs : List Int) (c : Int) (b : GoString)
    (hcs : ∀ x ∈ cs, validRune x = true) (hc : validRune c = true)
    (hl : isLetter Letter c = false) (h1 : c ≠ 39) (h2 : c ≠ 45) :
    ∃ m n : Int, WordCount Letter (stringOfRunes cs) = some m ∧ WordCount Letter b = some n ∧
      WordCount Letter (stringOfRunes cs ++ (encodeRune c ++ b)) = some (m + n) := by
  refine ⟨_, _, WordCount_eq_wordStarts Letter _, WordCount_eq_wordStarts Letter _, ?_⟩
  rw [WordCount_eq_wordStarts, runes_stringOfRunes_append cs _ hcs, runes_encodeRune_append,
    if_pos hc, runes_stringOfRunes cs hcs, wordStarts_append_sep Letter c _ hl h1 h2]
  simp

theorem WordCount_additive_witness :
    ∃ m n : Int, WordCount (fun _ => true) (stringOfRunes [104, 105]) = some m ∧
      WordCount (fun _ => true) (lit "you there") = some n ∧
      WordCount (fun _ => true) (stringOfRunes [104, 105] ++ (encodeRune 32 ++ lit "you there")) =
        some (m + n) :=
  WordCount_additive (fun _ => true) [104, 105] 32 (lit "you there") (by decide) (by decide)
    (by decide) (by decide) (by decide)

/-! ### UpperFirst, LowerFirst -/

theorem UpperFirst_cons (upper : Int → Int) (c : Int) (rest : GoString)
    (hc : validRune c = true) :
    UpperFirst upper (encodeRune c ++ rest) = encodeRune (unicodeToUpper upper c) ++ rest := by
  have hlen : 0 < (encodeRune c).length := List.length_pos.mpr (encodeRune_ne_nil c)
  rw [UpperFirst, if_neg (by rw [List.length_append]; omega), decode_encode c rest hc]
  simp

theorem LowerFirst_cons (lower : Int → Int) (c : Int) (rest : GoString)
    (hc : validRune c = true) :
    LowerFirst lower (encodeRune c ++ rest) = encodeRune (unicodeToLower lower c) ++ rest := by
  have hlen : 0 < (encodeRune c).length := List.length_pos.mpr (encodeRune_ne_nil c)
  rw [LowerFirst, if_neg (by rw [List.length_append]; omega), decode_encode c rest hc]
  simp

theorem UpperFirst_count (upper : Int → Int) (s : GoString) :
    (runes (UpperFirst upper s)).length = (runes s).length := by
  by_cases hs : s = []
  · subst hs; rfl
  · have hl : ¬ s.length = 0 := fun h => hs (List.length_eq_zero.mp h)
    rw [UpperFirst, if_neg hl, runes_encodeRune_append, runes_of_ne_nil s hs]
    simp

theorem LowerFirst_count (lower : Int → Int) (s : GoString) :
    (runes (LowerFirst lower s)).length = (runes s).length := by
  by_cases hs : s = []
  · subst hs; rfl
  · have hl : ¬ s.length = 0 := fun h => hs (List.length_eq_zero.mp h)
    rw [LowerFirst, if_neg hl, runes_encodeRune_append, runes_of_ne_nil s hs]
    simp

/-- C16: UpperFirst and LowerFirst change only the first code point. Both return the empty
text for the empty text; for a text made of a first code point c followed by rest,
UpperFirst gives the upper case of c (unicode.ToUpper) followed by rest unchanged and
LowerFirst gives the lower case of c followed by rest unchanged; for every Go string the
number of code points is preserved. UpperFirst "" is "", LowerFirst "HELLO" is "hELLO". -/
theorem UpperFirst_LowerFirst_first_only (upper lower : Int → Int) (c : Int)
    (rest s : GoString) (hc : validRune c = true) :
    UpperFirst upper [] = [] ∧ LowerFirst lower [] = [] ∧
    UpperFirst upper (encodeRune c ++ rest) = encodeRune (unicodeToUpper upper c) ++ rest ∧
    LowerFirst lower (encodeRune c ++ rest) = encodeRune (unicodeToLower lower c) ++ rest ∧
    (runes (UpperFirst upper s)).length = (runes s).length ∧
    (runes (LowerFirst lower s)).length = (runes s).length ∧
    UpperFirst upper (lit "") = lit "" ∧
    LowerFirst lower (lit "HELLO") = lit "hELLO" := by
  refine ⟨rfl, rfl, UpperFirst_cons upper c rest hc, LowerFirst_cons lower c rest hc,
    UpperFirst_count upper s, LowerFirst_count lower s, rfl, ?_⟩
  have e1 : lit "HELLO" = encodeRune 72 ++ lit "ELLO" := by decide!
  have e2 : unicodeToLower lower 72 = 104 := by
    simp [unicodeToLower, MaxASCII]
  have e3 : encodeRune 104 ++ lit "ELLO" = lit "hELLO" := by decide!
  rw [e1, LowerFirst_cons lower 72 _ (by decide), e2, e3]

theorem UpperFirst_LowerFirst_first_only_witness :
    validRune 0xFC = true ∧
    UpperFirst (fun r => if r = 0xFC then 0xDC else r) (encodeRune 0xFC ++ lit "ber") =
      encodeRune 0xDC ++ lit "ber" :=
  ⟨by decide,
   (UpperFirst_LowerFirst_first_only (fun r => if r = 0xFC then 0xDC else r) (fun r => r) 0xFC
      (lit "ber") [] (by decide)).2.2.1⟩

/-! ### The range loop over a text -/

theorem rangeAux_fuel (f1 : Nat) : ∀ (f2 : Nat) (s : GoString), s.length ≤ f1 → s.length ≤ f2 →
    rangeAux f1 s = rangeAux f2 s := by
  induction f1 with
  | zero =>
    intro f2 s h1 _
    have : s = [] := List.length_eq_zero.mp (by omega)
    subst this
    cases f2 <;> simp [rangeAux]
  | succ f1 ih =>
    intro f2 s h1 h2
    by_cases hs : s = []
    · subst hs
      cases f2 <;> simp [rangeAux]
    · have hlt := length_drop_decode s hs
      obtain ⟨g, rfl⟩ : ∃ g, f2 = g + 1 := ⟨f2 - 1, by
        have : 0 < s.length := List.length_pos.mpr hs
        omega⟩
      simp only [rangeAux]
      rw [ih g _ (by omega) (by omega)]

theorem rangeString_nil : rangeString [] = [] := rfl

theorem rangeString_of_ne_nil (s : GoString) (h : s ≠ []) :
    rangeString s = ((DecodeRuneInString s).1, s.take (DecodeRuneInString s).2) ::
      rangeString (s.drop (DecodeRuneInString s).2) := by
  have hlt := length_drop_decode s h
  have hpos : s.length > 0 := List.length_pos.mpr h
  unfold rangeString
  obtain ⟨n, hn⟩ : ∃ n, s.length = n + 1 := ⟨s.length - 1, by omega⟩
  rw [hn]
  simp only [rangeAux]
  rw [if_pos (by omega), rangeAux_fuel n _ _ (by omega) (le_refl _)]

theorem rangeString_encodeRune_append (c : Int) (rest : GoString) (h : validRune c = true) :
    rangeString (encodeRune c ++ rest) = (c, encodeRune c) :: rangeString rest := by
  have hne : encodeRune c ++ rest ≠ [] := by
    intro h0
    exact encodeRune_ne_nil c (List.append_eq_nil.mp h0).1
  rw [rangeString_of_ne_nil _ hne, decode_encode c rest h]
  simp

theorem rangeString_stringOfRunes (cs : List Int) (h : ∀ c ∈ cs, validRune c = true) :
    rangeString (stringOfRunes cs) = cs.map fun c => (c, encodeRune c) := by
  induction cs with
  | nil => rfl
  | cons c cs ih =>
    have hc := h c (List.mem_cons_self _ _)
    have ht : ∀ x ∈ cs, validRune x = true := fun x hx => h x (List.mem_cons_of_mem _ hx)
    simp only [stringOfRunes, List.flatMap_cons, List.map_cons] at ih ⊢
    rw [rangeString_encodeRune_append c _ hc, ih ht]

/-! ### Fields of a text -/

theorem stringOfRunes_append (xs ys : List Int) :
    stringOfRunes (xs ++ ys) = stringOfRunes xs ++ stringOfRunes ys := by
  simp [stringOfRunes, List.flatMap_append]

theorem modifyHead_nil_append (l : List (List Int)) :
    List.modifyHead (fun w => [] ++ w) l = l := by
  cases l <;> rfl

theorem fields_fold (f : Int → Bool) (cs : List Int) :
    ∀ (wr : List Int) (spans : List GoString),
      fieldsEnd ((cs.map fun c => (c, encodeRune c)).foldl (fieldsStep f)
        (spans, if wr = [] then none else some (stringOfRunes wr))) =
      spans ++ (((cs.splitOnP f).modifyHead fun w => wr ++ w).filter
        fun w => !w.isEmpty).map stringOfRunes := by
  induction cs with
  | nil =>
    intro wr spans
    by_cases hw : wr = []
    · subst hw
      simp [fieldsEnd, List.splitOnP_nil, List.modifyHead]
    · cases wr with
      | nil => exact absurd rfl hw
      | cons a t => simp [fieldsEnd, List.splitOnP_nil, List.modifyHead]
  | cons c cs ih =>
    intro wr spans
    rw [List.map_cons, List.foldl_cons, List.splitOnP_cons]
    by_cases hf : f c = true
    · rw [if_pos hf, List.modifyHead_cons]
      by_cases hw : wr = []
      · subst hw
        have e : fieldsStep f (spans, if ([] : List Int) = [] then none else some (stringOfRunes []))
            (c, encodeRune c) = (spans, if ([] : List Int) = [] then none else some (stringOfRunes [])) := by
          simp [fieldsStep, hf]
        rw [e, ih [] spans, modifyHead_nil_append]
        simp
      · have e : fieldsStep f (spans, if wr = [] then none else some (stringOfRunes wr))
            (c, encodeRune c) =
            (spans ++ [stringOfRunes wr], if ([] : List Int) = [] then none else some (stringOfRunes [])) := by
          simp [fieldsStep, hf, hw]
        rw [e, ih [] _, modifyHead_nil_append]
        cases wr with
        | nil => exact absurd rfl hw
        | cons a t => simp
    · rw [if_neg hf, List.modifyHead_modifyHead]
      have e : fieldsStep f (spans, if wr = [] then none else some (stringOfRunes wr))
          (c, encodeRune c) =
          (spans, if wr ++ [c] = [] then none else some (stringOfRunes (wr ++ [c]))) := by
        by_cases hw : wr = []
        · subst hw
          simp [fieldsStep, hf, stringOfRunes]
        · simp [fieldsStep, hf, hw, stringOfRunes_append, stringOfRunes]
      rw [e, ih (wr ++ [c]) spans]
      congr 4
      funext w
      simp

theorem FieldsFunc_stringOfRunes (f : Int → Bool) (cs : List Int)
    (h : ∀ c ∈ cs, validRune c = true) :
    FieldsFunc (stringOfRunes cs) f =
      ((cs.splitOnP f).filter fun w => !w.isEmpty).map stringOfRunes := by
  have := fields_fold f cs [] []
  rw [modifyHead_nil_append] at this
  rw [FieldsFunc, rangeString_stringOfRunes cs h]
  simpa using this

/-! ### The replacer of the case functions -/

theorem replacementOf_rule (b : Nat) :
    replacementOf [lit ".", lit " ", lit "_", lit " ", lit "-", lit " "] b =
      if b = 46 ∨ b = 95 ∨ b = 45 then some [32] else none := by
  have e1 : lit "." = [46] := by decide
  have e2 : lit "_" = [95] := by decide
  have e3 : lit "-" = [45] := by decide
  have e4 : lit " " = [32] := by decide
  rw [e1, e2, e3, e4]
  simp only [replacementOf, oldnewPairs]
  by_cases h1 : b = 46
  · subst h1; simp [List.find?]
  by_cases h2 : b = 95
  · subst h2; simp [List.find?]
  by_cases h3 : b = 45
  · subst h3; simp [List.find?]
  have n1 : ([46] == [b]) = false := by simp; omega
  have n2 : ([95] == [b]) = false := by simp; omega
  have n3 : ([45] == [b]) = false := by simp; omega
  simp [List.find?, h1, h2, h3, n1, n2, n3]

theorem Replace_rule_bytes (s : GoString) :
    Replace [lit ".", lit " ", lit "_", lit " ", lit "-", lit " "] s =
      s.flatMap fun b => if b = 46 ∨ b = 95 ∨ b = 45 then [32] else [b] := by
  unfold Replace
  congr 1
  funext b
  rw [replacementOf_rule]
  split_ifs <;> rfl

theorem rule_encodeRune (c : Int) :
    ((encodeRune c).flatMap fun b => if b = 46 ∨ b = 95 ∨ b = 45 then [32] else [b]) =
      encodeRune (if c = 46 ∨ c = 95 ∨ c = 45 then 32 else c) := by
  by_cases ha : 0 ≤ c ∧ c ≤ 127
  · rw [encodeRune_ascii_iff c ha]
    by_cases hc : c = 46 ∨ c = 95 ∨ c = 45
    · rw [if_pos hc]
      have : c.toNat = 46 ∨ c.toNat = 95 ∨ c.toNat = 45 := by omega
      simp only [List.flatMap_cons, List.flatMap_nil, List.append_nil, if_pos this]
      decide
    · rw [if_neg hc]
      have : ¬ (c.toNat = 46 ∨ c.toNat = 95 ∨ c.toNat = 45) := by omega
      simp only [List.flatMap_cons, List.flatMap_nil, List.append_nil, if_neg this]
      rw [encodeRune_ascii_iff c ha]
  · have hc : ¬ (c = 46 ∨ c = 95 ∨ c = 45) := by omega
    rw [if_neg hc]
    apply flatMap_fixed
    intro b hb
    have := encodeRune_high c ha b hb
    rw [if_neg (by omega)]

theorem Replace_rule_codepoints (cs : List Int) :
    Replace [lit ".", lit " ", lit "_", lit " ", lit "-", lit " "] (stringOfRunes cs) =
      stringOfRunes (cs.map fun c => if c = 46 ∨ c = 95 ∨ c = 45 then 32 else c) := by
  rw [Replace_rule_bytes, stringOfRunes, stringOfRunes, List.flatMap_assoc]
  induction cs with
  | nil => rfl
  | cons c cs ih =>
    rw [List.flatMap_cons, List.map_cons, List.flatMap_cons, ih, rule_encodeRune]

/-! ### Splitting a list at separators -/

theorem splitOnP_map (p : Int → Bool) (g : Int → Int) (l : List Int) :
    (l.map g).splitOnP p = (l.splitOnP fun x => p (g x)).map (List.map g) := by
  induction l with
  | nil => simp [List.splitOnP_nil]
  | cons a l ih =>
    rw [List.map_cons, List.splitOnP_cons, List.splitOnP_cons, ih]
    by_cases h : p (g a) = true
    · rw [if_pos h, if_pos h]
      rfl
    · rw [if_neg h, if_neg h]
      have hne := List.splitOnP_ne_nil (fun x => p (g x)) l
      cases hs : List.splitOnP (fun x => p (g x)) l with
      | nil => exact absurd hs hne
      | cons w ws => rfl

theorem splitOnP_runs (q : Int → Bool) (l : List Int) :
    ∀ w ∈ l.splitOnP q, ∀ x ∈ w, q x = false ∧ x ∈ l := by
  induction l with
  | nil =>
    intro w hw x hx
    rw [List.splitOnP_nil, List.mem_singleton] at hw
    subst hw
    cases hx
  | cons a l ih =>
    intro w hw x hx
    rw [List.splitOnP_cons] at hw
    by_cases h : q a = true
    · rw [if_pos h, List.mem_cons] at hw
      rcases hw with hw | hw
      · subst hw; cases hx
      · exact ⟨(ih w hw x hx).1, List.mem_cons_of_mem _ (ih w hw x hx).2⟩
    · rw [if_neg h] at hw
      cases hs : List.splitOnP q l with
      | nil => exact absurd hs (List.splitOnP_ne_nil q l)
      | cons v vs =>
        rw [hs, List.modifyHead_cons, List.mem_cons] at hw
        rcases hw with hw | hw
        · subst hw
          rw [List.mem_cons] at hx
          rcases hx with hx | hx
          · subst hx
            exact ⟨by simpa using h, List.mem_cons_self _ _⟩
          · have := ih v (by rw [hs]; exact List.mem_cons_self _ _) x hx
            exact ⟨this.1, List.mem_cons_of_mem _ this.2⟩
        · have := ih w (by rw [hs]; exact List.mem_cons_of_mem _ hw) x hx
          exact ⟨this.1, List.mem_cons_of_mem _ this.2⟩

theorem splitOnP_congr (p q : Int → Bool) (l : List Int) (h : ∀ x ∈ l, p x = q x) :
    l.splitOnP p = l.splitOnP q := by
  induction l with
  | nil => simp [List.splitOnP_nil]
  | cons a l ih =>
    rw [List.splitOnP_cons, List.splitOnP_cons, h a (List.mem_cons_self _ _),
      ih (fun x hx => h x (List.mem_cons_of_mem _ hx))]

theorem isSpace_toSpace (W : Int → Bool) (c : Int) :
    IsSpace W (if c = 46 ∨ c = 95 ∨ c = 45 then 32 else c) = isSeparator W c := by
  by_cases hc : c = 46 ∨ c = 95 ∨ c = 45
  · rw [if_pos hc]
    have e : IsSpace W 32 = true := by
      simp [IsSpace]
    rw [e]
    simp [isSeparator, hc]
  · rw [if_neg hc]
    simp [isSeparator, hc]

theorem splitWords_mem (W : Int → Bool) (cs : List Int) :
    ∀ w ∈ splitWords W cs, w ≠ [] ∧ ∀ x ∈ w, isSeparator W x = false ∧ x ∈ cs := by
  intro w hw
  rw [splitWords, List.mem_filter] at hw
  refine ⟨?_, splitOnP_runs _ cs w hw.1⟩
  intro h0
  subst h0
  simp at hw

theorem Fields_Replace_rule (W : Int → Bool) (cs : List Int)
    (h : ∀ c ∈ cs, validRune c = true) :
    Fields W (Replace [lit ".", lit " ", lit "_", lit " ", lit "-", lit " "] (stringOfRunes cs)) =
      (splitWords W cs).map stringOfRunes := by
  have hv : ∀ c ∈ cs.map (fun c => if c = 46 ∨ c = 95 ∨ c = 45 then 32 else c),
      validRune c = true := by
    intro c hc
    rw [List.mem_map] at hc
    obtain ⟨a, ha, rfl⟩ := hc
    split_ifs
    · decide
    · exact h a ha
  rw [Replace_rule_codepoints, Fields, FieldsFunc_stringOfRunes _ _ hv, splitOnP_map]
  have e : (fun x => IsSpace W (if x = 46 ∨ x = 95 ∨ x = 45 then 32 else x)) = isSeparator W := by
    funext x
    exact isSpace_toSpace W x
  rw [e, List.filter_map, List.map_map]
  have e2 : ((fun w : List Int => !w.isEmpty) ∘
      List.map fun c => if c = 46 ∨ c = 95 ∨ c = 45 then 32 else c) = fun w => !w.isEmpty := by
    funext w
    cases w <;> rfl
  rw [e2]
  apply List.map_congr_left
  intro w hw
  have hw2 := (splitWords_mem W cs w hw).2
  simp only [Function.comp]
  congr 1
  conv => rhs; rw [← List.map_id w]
  apply List.map_congr_left
  intro x hx
  have hx2 := (hw2 x hx).1
  have : ¬ (x = 46 ∨ x = 95 ∨ x = 45) := by
    intro h3
    simp [isSeparator, h3] at hx2
  rw [if_neg this]
  rfl

/-! ### ToLower, ToUpper -/

theorem stringsMap_ascii (m : Int → Int) (g : Nat → Nat)
    (hm : ∀ b : Nat, b < 128 → m (Int.ofNat b) = Int.ofNat (g b) ∧ g b < 128)
    (s : GoString) (h : ∀ b ∈ s, b < 128) : stringsMap m s = s.map g := by
  rw [stringsMap, runes_ascii_bytes s h]
  induction s with
  | nil => rfl
  | cons b t ih =>
    have hb := hm b (h b (List.mem_cons_self _ _))
    have ht := ih (fun x hx => h x (List.mem_cons_of_mem _ hx))
    have e : encodeRune (Int.ofNat (g b)) = [g b] := by
      have hle : ((g b : Nat) : Int) ≤ 127 := by omega
      exact encodeRune_ascii (Int.ofNat (g b)) (Int.ofNat_nonneg _) hle
    have hk : List.filter (fun r => decide (0 ≤ r)) (List.map m (List.map Int.ofNat (b :: t))) =
        Int.ofNat (g b) :: List.filter (fun r => decide (0 ≤ r)) (List.map m (List.map Int.ofNat t)) := by
      have hp : decide (0 ≤ Int.ofNat (g b)) = true := decide_eq_true (Int.ofNat_nonneg _)
      rw [List.map_cons, List.map_cons, List.filter_cons, hb.1, if_pos hp]
    rw [hk, stringOfRunes, List.flatMap_cons, e]
    rw [stringOfRunes] at ht
    rw [ht]
    rfl

theorem all_ascii_iff (s : GoString) :
    s.all (fun c => decide (c < 0x80)) = true ↔ ∀ b ∈ s, b < 128 := by
  simp [List.all_eq_true]

theorem ToLower_eq_map (lower : Int → Int) (s : GoString) :
    ToLower lower s = stringsMap (unicodeToLower lower) s := by
  unfold ToLower
  by_cases h : s.all (fun c => decide (c < 0x80)) = true
  · rw [if_pos h]
    symm
    apply stringsMap_ascii _ _ _ s ((all_ascii_iff s).mp h)
    intro b hb
    unfold unicodeToLower MaxASCII
    simp only [Int.ofNat_eq_coe]
    split_ifs <;> constructor <;> omega
  · rw [if_neg h]

theorem ToUpper_eq_map (upper : Int → Int) (s : GoString) :
    ToUpper upper s = stringsMap (unicodeToUpper upper) s := by
  unfold ToUpper
  by_cases h : s.all (fun c => decide (c < 0x80)) = true
  · rw [if_pos h]
    symm
    apply stringsMap_ascii _ _ _ s ((all_ascii_iff s).mp h)
    intro b hb
    unfold unicodeToUpper MaxASCII
    simp only [Int.ofNat_eq_coe]
    split_ifs <;> constructor <;> omega
  · rw [if_neg h]

theorem stringsMap_stringOfRunes (m : Int → Int) (w : List Int)
    (h : ∀ c ∈ w, validRune c = true) :
    stringsMap m (stringOfRunes w) =
      stringOfRunes ((w.map m).filter fun r => decide (0 ≤ r)) := by
  rw [stringsMap, runes_stringOfRunes w h]

theorem ToLower_ascii_congr (l1 l2 : Int → Int) (s : GoString) (h : ∀ b ∈ s, b < 128) :
    ToLower l1 s = ToLower l2 s := by
  have := (all_ascii_iff s).mpr h
  rw [ToLower, ToLower, if_pos this, if_pos this]

theorem ToUpper_ascii_congr (u1 u2 : Int → Int) (s : GoString) (h : ∀ b ∈ s, b < 128) :
    ToUpper u1 s = ToUpper u2 s := by
  have := (all_ascii_iff s).mpr h
  rw [ToUpper, ToUpper, if_pos this, if_pos this]

/-! ### The words of the case functions -/

theorem isSeparator_latin1 (W1 W2 : Int → Bool) (c : Int) (h : 0 ≤ c ∧ c ≤ 0xFF) :
    isSeparator W1 c = isSeparator W2 c := by
  simp only [isSeparator, IsSpace, if_pos h]

theorem splitWords_latin1 (W1 W2 : Int → Bool) (cs : List Int)
    (h : ∀ c ∈ cs, 0 ≤ c ∧ c ≤ 127) : splitWords W1 cs = splitWords W2 cs := by
  rw [splitWords, splitWords, splitOnP_congr (isSeparator W1) (isSeparator W2) cs
    (fun x hx => isSeparator_latin1 W1 W2 x ⟨(h x hx).1, by have := (h x hx).2; omega⟩)]

theorem words_ascii_congr (W1 W2 : Int → Bool) (f1 f2 : GoString → GoString)
    (hf : ∀ s : GoString, (∀ b ∈ s, b < 128) → f1 s = f2 s) (cs : List Int)
    (h : ∀ c ∈ cs, 0 ≤ c ∧ c ≤ 127) :
    (splitWords W1 cs).map (fun w => f1 (stringOfRunes w)) =
      (splitWords W2 cs).map (fun w => f2 (stringOfRunes w)) := by
  rw [splitWords_latin1 W1 W2 cs h]
  apply List.map_congr_left
  intro w hw
  have hw2 := (splitWords_mem W2 cs w hw).2
  apply hf
  have hwa : ∀ x ∈ w, 0 ≤ x ∧ x ≤ 127 := fun x hx => h x (hw2 x hx).2
  rw [stringOfRunes_ascii w hwa]
  intro b hb
  rw [List.mem_map] at hb
  obtain ⟨x, hx, rfl⟩ := hb
  have := hwa x hx
  omega

theorem Join_nil (sep : GoString) : Join [] sep = [] := rfl

theorem KebabCase_words (W : Int → Bool) (L : Int → Int) (cs : List Int)
    (h : ∀ c ∈ cs, validRune c = true) :
    KebabCase W L (stringOfRunes cs) =
      Join ((splitWords W cs).map fun w => ToLower L (stringOfRunes w)) (lit "-") := by
  rw [KebabCase, Fields_Replace_rule W cs h, List.map_map]
  rfl

theorem SnakeCase_words (W : Int → Bool) (L : Int → Int) (cs : List Int)
    (h : ∀ c ∈ cs, validRune c = true) :
    SnakeCase W L (stringOfRunes cs) =
      Join ((splitWords W cs).map fun w => ToLower L (stringOfRunes w)) (lit "_") := by
  rw [SnakeCase, Fields_Replace_rule W cs h, List.map_map]
  rfl

theorem UpperSnakeCase_words (W : Int → Bool) (U : Int → Int) (cs : List Int)
    (h : ∀ c ∈ cs, validRune c = true) :
    UpperSnakeCase W U (stringOfRunes cs) =
      Join ((splitWords W cs).map fun w => ToUpper U (stringOfRunes w)) (lit "_") := by
  rw [UpperSnakeCase, Fields_Replace_rule W cs h, List.map_map]
  rfl

theorem KebabCase_example (W : Int → Bool) (L : Int → Int) :
    KebabCase W L (lit "Hello_World.Test") = lit "hello-world-test" := by
  have e0 : lit "Hello_World.Test" =
      stringOfRunes [72, 101, 108, 108, 111, 95, 87, 111, 114, 108, 100, 46, 84, 101, 115, 116] := by
    decide!
  rw [e0, KebabCase_words W L _ (by decide!),
    words_ascii_congr W (fun _ => false) (ToLower L) (ToLower fun r => r)
      (ToLower_ascii_congr L _) _ (by decide!)]
  decide!

theorem SnakeCase_example (W : Int → Bool) (L : Int → Int) :
    SnakeCase W L (lit "Hello-World Test") = lit "hello_world_test" := by
  have e0 : lit "Hello-World Test" =
      stringOfRunes [72, 101, 108, 108, 111, 45, 87, 111, 114, 108, 100, 32, 84, 101, 115, 116] := by
    decide!
  rw [e0, SnakeCase_words W L _ (by decide!),
    words_ascii_congr W (fun _ => false) (ToLower L) (ToLower fun r => r)
      (ToLower_ascii_congr L _) _ (by decide!)]
  decide!

/-- C13: KebabCase, SnakeCase and UpperSnakeCase share one split. For every text s, given
by its code points cs, with words(s) the maximal runs of code points that are neither
whitespace (unicode.IsSpace) nor one of . _ - in order, empty runs dropped: KebabCase s is
the lowercased words (strings.ToLower, code point by code point) joined by single "-",
SnakeCase s is the lowercased words joined by single "_", UpperSnakeCase s is the
uppercased words joined by single "_"; a text with no word gives the empty text.
KebabCase "Hello_World.Test" is "hello-world-test" and SnakeCase "Hello-World Test" is
"hello_world_test". -/
theorem case_functions_share_split (W : Int → Bool) (L U : Int → Int) (cs : List Int)
    (h : ∀ c ∈ cs, validRune c = true) :
    KebabCase W L (stringOfRunes cs) =
      Join ((splitWords W cs).map fun w => ToLower L (stringOfRunes w)) (lit "-") ∧
    SnakeCase W L (stringOfRunes cs) =
      Join ((splitWords W cs).map fun w => ToLower L (stringOfRunes w)) (lit "_") ∧
    UpperSnakeCase W U (stringOfRunes cs) =
      Join ((splitWords W cs).map fun w => ToUpper U (stringOfRunes w)) (lit "_") ∧
    (∀ w ∈ splitWords W cs,
      ToLower L (stringOfRunes w) =
        stringOfRunes ((w.map (unicodeToLower L)).filter fun r => decide (0 ≤ r)) ∧
      ToUpper U (stringOfRunes w) =
        stringOfRunes ((w.map (unicodeToUpper U)).filter fun r => decide (0 ≤ r))) ∧
    (splitWords W cs = [] →
      KebabCase W L (stringOfRunes cs) = [] ∧ SnakeCase W L (stringOfRunes cs) = [] ∧
      UpperSnakeCase W U (stringOfRunes cs) = []) ∧
    KebabCase W L (lit "Hello_World.Test") = lit "hello-world-test" ∧
    SnakeCase W L (lit "Hello-World Test") = lit "hello_world_test" := by
  refine ⟨KebabCase_words W L cs h, SnakeCase_words W L cs h, UpperSnakeCase_words W U cs h,
    ?_, ?_, KebabCase_example W L, SnakeCase_example W L⟩
  · intro w hw
    have hv : ∀ c ∈ w, validRune c = true := fun c hc => h c ((splitWords_mem W cs w hw).2 c hc).2
    exact ⟨by rw [ToLower_eq_map, stringsMap_stringOfRunes _ w hv],
      by rw [ToUpper_eq_map, stringsMap_stringOfRunes _ w hv]⟩
  · intro h0
    rw [KebabCase_words W L cs h, SnakeCase_words W L cs h, UpperSnakeCase_words W U cs h, h0]
    exact ⟨rfl, rfl, rfl⟩

theorem case_functions_share_split_witness :
    KebabCase (fun _ => false) (fun r => r) (stringOfRunes [72, 105, 32, 32, 89, 111, 117]) =
      Join ((splitWords (fun _ => false) [72, 105, 32, 32, 89, 111, 117]).map
        fun w => ToLower (fun r => r) (stringOfRunes w)) (lit "-") :=
  (case_functions_share_split (fun _ => false) (fun r => r) (fun r => r)
    [72, 105, 32, 32, 89, 111, 117] (by decide)).1

/-! ### Idempotence of the case functions -/

theorem validRune_nonneg (r : Int) (h : validRune r = true) : 0 ≤ r := by
  simp only [validRune, decide_eq_true_eq] at h
  exact h.1

theorem filter_nonneg_valid (w : List Int) (h : ∀ c ∈ w, validRune c = true) :
    w.filter (fun r => decide (0 ≤ r)) = w := by
  rw [List.filter_eq_self]
  intro a ha
  exact decide_eq_true (validRune_nonneg a (h a ha))

theorem Join_stringOfRunes (ws : List (List Int)) (c : Int) :
    Join (ws.map stringOfRunes) (encodeRune c) = stringOfRunes (joinWords ws c) := by
  cases ws with
  | nil => rfl
  | cons w rest =>
    rw [List.map_cons, Join, joinWords, stringOfRunes_append]
    congr 1
    induction rest with
    | nil => rfl
    | cons v vs ih =>
      rw [List.map_cons, List.flatMap_cons, List.flatMap_cons, stringOfRunes_append, ih]
      rfl

theorem joinWords_cons_cons (w v : List Int) (vs : List (List Int)) (c : Int) :
    joinWords (w :: v :: vs) c = w ++ c :: joinWords (v :: vs) c := by
  simp [joinWords]

theorem splitWords_joinWords (W : Int → Bool) (c : Int) (hsep : isSeparator W c = true)
    (ws : List (List Int))
    (hws : ∀ w ∈ ws, w ≠ [] ∧ ∀ x ∈ w, isSeparator W x = false) :
    splitWords W (joinWords ws c) = ws := by
  induction ws with
  | nil => rfl
  | cons w rest ih =>
    have hw := hws w (List.mem_cons_self _ _)
    have hnot : ∀ x ∈ w, ¬ isSeparator W x = true := by
      intro x hx
      rw [(hw.2 x hx)]
      exact Bool.false_ne_true
    have hwe : (!w.isEmpty) = true := by
      cases w with
      | nil => exact absurd rfl hw.1
      | cons a t => rfl
    cases rest with
    | nil =>
      have e : joinWords [w] c = w := by simp [joinWords]
      rw [e, splitWords, List.splitOnP_eq_single _ _ hnot, List.filter_cons, if_pos hwe]
      rfl
    | cons v vs =>
      have ih2 := ih (fun u hu => hws u (List.mem_cons_of_mem _ hu))
      rw [splitWords] at ih2
      rw [joinWords_cons_cons, splitWords, List.splitOnP_first _ _ hnot c hsep,
        List.filter_cons, if_pos hwe, ih2]

theorem joined_words (W : Int → Bool) (m : Int → Int) (c : Int) (cs : List Int)
    (h : ∀ x ∈ cs, validRune x = true)
    (hm : ∀ r, validRune r = true → validRune (m r) = true) :
    Join ((Fields W (Replace [lit ".", lit " ", lit "_", lit " ", lit "-", lit " "]
      (stringOfRunes cs))).map (stringsMap m)) (encodeRune c) =
      stringOfRunes (joinWords ((splitWords W cs).map (List.map m)) c) := by
  rw [Fields_Replace_rule W cs h, List.map_map, ← Join_stringOfRunes, List.map_map]
  congr 1
  apply List.map_congr_left
  intro w hw
  have hv : ∀ x ∈ w, validRune x = true := fun x hx => h x ((splitWords_mem W cs w hw).2 x hx).2
  simp only [Function.comp]
  rw [stringsMap_stringOfRunes m w hv, filter_nonneg_valid]
  intro x hx
  rw [List.mem_map] at hx
  obtain ⟨a, ha, rfl⟩ := hx
  exact hm a (hv a ha)

theorem joinWords_valid (ws : List (List Int)) (c : Int) (hc : validRune c = true)
    (h : ∀ w ∈ ws, ∀ x ∈ w, validRune x = true) : ∀ x ∈ joinWords ws c, validRune x = true := by
  cases ws with
  | nil =>
    intro x hx
    cases hx
  | cons w rest =>
    intro x hx
    rw [joinWords, List.mem_append, List.mem_flatMap] at hx
    rcases hx with hx | ⟨v, hv, hx⟩
    · exact h w (List.mem_cons_self _ _) x hx
    · rw [List.mem_cons] at hx
      rcases hx with hx | hx
      · rw [hx]; exact hc
      · exact h v (List.mem_cons_of_mem _ hv) x hx

theorem caseJoin_idempotent (W : Int → Bool) (m : Int → Int) (c : Int) (cs : List Int)
    (h : ∀ x ∈ cs, validRune x = true)
    (hm : ∀ r, validRune r = true → validRune (m r) = true ∧ m (m r) = m r ∧
      (isSeparator W r = false → isSeparator W (m r) = false))
    (hsep : isSeparator W c = true) (hc : validRune c = true) :
    Join ((Fields W (Replace [lit ".", lit " ", lit "_", lit " ", lit "-", lit " "]
      (Join ((Fields W (Replace [lit ".", lit " ", lit "_", lit " ", lit "-", lit " "]
        (stringOfRunes cs))).map (stringsMap m)) (encodeRune c)))).map (stringsMap m))
        (encodeRune c) =
    Join ((Fields W (Replace [lit ".", lit " ", lit "_", lit " ", lit "-", lit " "]
        (stringOfRunes cs))).map (stringsMap m)) (encodeRune c) := by
  have hmv : ∀ r, validRune r = true → validRune (m r) = true := fun r hr => (hm r hr).1
  rw [joined_words W m c cs h hmv]
  have hws : ∀ w ∈ (splitWords W cs).map (List.map m),
      (w ≠ [] ∧ ∀ x ∈ w, isSeparator W x = false) ∧ (∀ x ∈ w, validRune x = true) ∧
        List.map m w = w := by
    intro w hw
    rw [List.mem_map] at hw
    obtain ⟨u, hu, rfl⟩ := hw
    have hu2 := splitWords_mem W cs u hu
    have huv : ∀ x ∈ u, validRune x = true := fun x hx => h x (hu2.2 x hx).2
    refine ⟨⟨?_, ?_⟩, ?_, ?_⟩
    · intro h0
      exact hu2.1 (List.map_eq_nil_iff.mp h0)
    · intro x hx
      rw [List.mem_map] at hx
      obtain ⟨a, ha, rfl⟩ := hx
      exact (hm a (huv a ha)).2.2 (hu2.2 a ha).1
    · intro x hx
      rw [List.mem_map] at hx
      obtain ⟨a, ha, rfl⟩ := hx
      exact hmv a (huv a ha)
    · rw [List.map_map]
      apply List.map_congr_left
      intro a ha
      exact (hm a (huv a ha)).2.1
  rw [joined_words W m c _ (joinWords_valid _ c hc (fun w hw => (hws w hw).2.1)) hmv,
    splitWords_joinWords W c hsep _ (fun w hw => (hws w hw).1)]
  congr 2
  conv => rhs; rw [← List.map_id (List.map (List.map m) (splitWords W cs))]
  apply List.map_congr_left
  intro w hw
  exact (hws w hw).2.2

theorem ToLower_fun (L : Int → Int) : ToLower L = stringsMap (unicodeToLower L) :=
  funext (ToLower_eq_map L)

theorem ToUpper_fun (U : Int → Int) : ToUpper U = stringsMap (unicodeToUpper U) :=
  funext (ToUpper_eq_map U)

theorem isSeparator_hyphen (W : Int → Bool) : isSeparator W 45 = true := by
  simp [isSeparator]

theorem isSeparator_underscore (W : Int → Bool) : isSeparator W 95 = true := by
  simp [isSeparator]

theorem toLower_ascii_table (W : Int → Bool) (L : Int → Int) (r : Int)
    (h : validRune r = true) (h1 : r ≤ 127) :
    validRune (unicodeToLower L r) = true ∧
      unicodeToLower L (unicodeToLower L r) = unicodeToLower L r ∧
      (isSeparator W r = false → isSeparator W (unicodeToLower L r) = false) := by
  have h0 := validRune_nonneg r h
  unfold unicodeToLower MaxASCII
  by_cases h2 : 65 ≤ r ∧ r ≤ 90
  · have h3 : r + 32 ≤ 127 := by omega
    have h4 : ¬ (65 ≤ r + 32 ∧ r + 32 ≤ 90) := by omega
    simp only [if_pos h1, if_pos h2, if_pos h3, if_neg h4]
    refine ⟨?_, trivial, ?_⟩
    · simp only [validRune, decide_eq_true_eq]
      omega
    · intro _
      have h5 : 0 ≤ r + 32 ∧ r + 32 ≤ 0xFF := by omega
      simp only [isSeparator, IsSpace, if_pos h5, Bool.or_eq_false_iff, decide_eq_false_iff_not]
      omega
  · simp only [if_pos h1, if_neg h2]
    exact ⟨h, trivial, id⟩

theorem toUpper_ascii_table (W : Int → Bool) (U : Int → Int) (r : Int)
    (h : validRune r = true) (h1 : r ≤ 127) :
    validRune (unicodeToUpper U r) = true ∧
      unicodeToUpper U (unicodeToUpper U r) = unicodeToUpper U r ∧
      (isSeparator W r = false → isSeparator W (unicodeToUpper U r) = false) := by
  have h0 := validRune_nonneg r h
  unfold unicodeToUpper MaxASCII
  by_cases h2 : 97 ≤ r ∧ r ≤ 122
  · have h3 : r - 32 ≤ 127 := by omega
    have h4 : ¬ (97 ≤ r - 32 ∧ r - 32 ≤ 122) := by omega
    simp only [if_pos h1, if_pos h2, if_pos h3, if_neg h4]
    refine ⟨?_, trivial, ?_⟩
    · simp only [validRune, decide_eq_true_eq]
      omega
    · intro _
      have h5 : 0 ≤ r - 32 ∧ r - 32 ≤ 0xFF := by omega
      simp only [isSeparator, IsSpace, if_pos h5, Bool.or_eq_false_iff, decide_eq_false_iff_not]
      omega
  · simp only [if_pos h1, if_neg h2]
    exact ⟨h, trivial, id⟩


/-- C14: KebabCase, SnakeCase and UpperSnakeCase are idempotent. For every text s, given by
its code points cs, KebabCase (KebabCase s) = KebabCase s, SnakeCase (SnakeCase s) =
SnakeCase s and UpperSnakeCase (UpperSnakeCase s) = UpperSnakeCase s, for case tables
beyond ASCII (unicode.ToLower, unicode.ToUpper) that send a code point to a code point,
whose images are fixed by the case mapping, and that send no code point that is not a
separator to whitespace or to one of . _ -. -/
theorem case_functions_idempotent (W : Int → Bool) (L U : Int → Int) (cs : List Int)
    (h : ∀ x ∈ cs, validRune x = true)
    (hL : ∀ r, validRune r = true → 127 < r → validRune (L r) = true ∧
      unicodeToLower L (L r) = L r ∧ (isSeparator W r = false → isSeparator W (L r) = false))
    (hU : ∀ r, validRune r = true → 127 < r → validRune (U r) = true ∧
      unicodeToUpper U (U r) = U r ∧ (isSeparator W r = false → isSeparator W (U r) = false)) :
    KebabCase W L (KebabCase W L (stringOfRunes cs)) = KebabCase W L (stringOfRunes cs) ∧
    SnakeCase W L (SnakeCase W L (stringOfRunes cs)) = SnakeCase W L (stringOfRunes cs) ∧
    UpperSnakeCase W U (UpperSnakeCase W U (stringOfRunes cs)) =
      UpperSnakeCase W U (stringOfRunes cs) := by
  have e1 : lit "-" = encodeRune 45 := by decide
  have e2 : lit "_" = encodeRune 95 := by decide
  have hL2 : ∀ r, validRune r = true → validRune (unicodeToLower L r) = true ∧
      unicodeToLower L (unicodeToLower L r) = unicodeToLower L r ∧
      (isSeparator W r = false → isSeparator W (unicodeToLower L r) = false) := by
    intro r hr
    by_cases h1 : r ≤ 127
    · exact toLower_ascii_table W L r hr h1
    · have e : unicodeToLower L r = L r := by
        unfold unicodeToLower MaxASCII
        rw [if_neg h1]
      rw [e]
      exact hL r hr (by omega)
  have hU2 : ∀ r, validRune r = true → validRune (unicodeToUpper U r) = true ∧
      unicodeToUpper U (unicodeToUpper U r) = unicodeToUpper U r ∧
      (isSeparator W r = false → isSeparator W (unicodeToUpper U r) = false) := by
    intro r hr
    by_cases h1 : r ≤ 127
    · exact toUpper_ascii_table W U r hr h1
    · have e : unicodeToUpper U r = U r := by
        unfold unicodeToUpper MaxASCII
        rw [if_neg h1]
      rw [e]
      exact hU r hr (by omega)
  refine ⟨?_, ?_, ?_⟩
  · simp only [KebabCase, ToLower_fun, e1]
    exact caseJoin_idempotent W _ 45 cs h hL2 (isSeparator_hyphen W) (by decide)
  · simp only [SnakeCase, ToLower_fun, e2]
    exact caseJoin_idempotent W _ 95 cs h hL2 (isSeparator_underscore W) (by decide)
  · simp only [UpperSnakeCase, ToUpper_fun, e2]
    exact caseJoin_idempotent W _ 95 cs h hU2 (isSeparator_underscore W) (by decide)

theorem lower_id_beyond_ascii (r : Int) (h : validRune r = true) (h1 : 127 < r) :
    validRune r = true ∧ unicodeToLower (fun x => x) r = r ∧
      (isSeparator (fun _ => false) r = false → isSeparator (fun _ => false) r = false) := by
  refine ⟨h, ?_, id⟩
  unfold unicodeToLower MaxASCII
  rw [if_neg (by omega)]

theorem upper_id_beyond_ascii (r : Int) (h : validRune r = true) (h1 : 127 < r) :
    validRune r = true ∧ unicodeToUpper (fun x => x) r = r ∧
      (isSeparator (fun _ => false) r = false → isSeparator (fun _ => false) r = false) := by
  refine ⟨h, ?_, id⟩
  unfold unicodeToUpper MaxASCII
  rw [if_neg (by omega)]

theorem case_functions_idempotent_witness :
    KebabCase (fun _ => false) (fun x => x)
        (KebabCase (fun _ => false) (fun x => x) (stringOfRunes [67, 97, 102, 0xE9, 95, 65])) =
      KebabCase (fun _ => false) (fun x => x) (stringOfRunes [67, 97, 102, 0xE9, 95, 65]) :=
  (case_functions_idempotent (fun _ => false) (fun x => x) (fun x => x)
    [67, 97, 102, 0xE9, 95, 65] (by decide) lower_id_beyond_ascii upper_id_beyond_ascii).1

/-! ### The four camel case functions -/

theorem Join_empty_sep (ws : List GoString) : Join ws (lit "") = ws.flatten := by
  have e : lit "" = [] := rfl
  rw [e]
  cases ws with
  | nil => rfl
  | cons w rest =>
    rw [Join, List.flatten_cons]
    congr 1
    induction rest with
    | nil => rfl
    | cons v vs ih => rw [List.flatMap_cons, ih, List.flatten_cons, List.nil_append]

theorem matchLoop_English : matchLoop 2 English = some 0 := by decide

theorem matchLoop_BrazilianPortuguese : matchLoop 3 BrazilianPortuguese = some 0 := by decide

theorem matchIndex_English : matchIndex English = 0 := by decide

theorem matchIndex_BrazilianPortuguese : matchIndex BrazilianPortuguese = 0 := by decide

theorem casesTitle_same (T : Nat → GoString → GoString) :
    casesTitle T English = casesTitle T BrazilianPortuguese := by
  funext s
  rw [casesTitle, casesTitle, matchIndex_English, matchIndex_BrazilianPortuguese]

/-- C15: CamelCase, PascalCase, UpperCamelCase and LowerCamelCase are observably
identical. For every Go string all four return the same string: neither the English tag
nor the Brazilian Portuguese tag, nor a parent of them, has casing rules of its own, so
both select entry 0 of the table of title casers (the matcher finds it, on the root of
the chain). For every text
s, given by its code points cs, the result is the concatenation, with no joiner, of the
title-cased words of s (split on whitespace and on . _ -); LowerCamelCase passes its first
word to the same title caser as every other word and does not lowercase it. -/
theorem camel_functions_identical (W : Int → Bool) (T : Nat → GoString → GoString)
    (s : GoString) (cs : List Int) (h : ∀ c ∈ cs, validRune c = true) :
    CamelCase W T s = PascalCase W T s ∧
    PascalCase W T s = UpperCamelCase W T s ∧
    UpperCamelCase W T s = LowerCamelCase W T s ∧
    matchLoop 2 English = some 0 ∧ matchLoop 3 BrazilianPortuguese = some 0 ∧
    matchIndex English = 0 ∧ matchIndex BrazilianPortuguese = 0 ∧
    LowerCamelCase W T (stringOfRunes cs) =
      ((splitWords W cs).map fun w => T 0 (stringOfRunes w)).flatten ∧
    CamelCase W T (stringOfRunes cs) =
      ((splitWords W cs).map fun w => T 0 (stringOfRunes w)).flatten := by
  refine ⟨rfl, rfl, ?_, matchLoop_English, matchLoop_BrazilianPortuguese, matchIndex_English,
    matchIndex_BrazilianPortuguese, ?_, ?_⟩
  · rw [UpperCamelCase, LowerCamelCase, casesTitle_same]
  · rw [LowerCamelCase, Fields_Replace_rule W cs h, Join_empty_sep, List.map_map]
    rfl
  · rw [CamelCase, Fields_Replace_rule W cs h, Join_empty_sep, List.map_map]
    rfl

theorem camel_functions_identical_witness :
    UpperCamelCase (fun _ => false) (fun _ w => w) (lit "hello world") =
      LowerCamelCase (fun _ => false) (fun _ w => w) (lit "hello world") :=
  (camel_functions_identical (fun _ => false) (fun _ w => w) (lit "hello world")
    [104, 105] (by decide)).2.2.1

end Strutil
